import Mathlib

/-!
Shallow embedding of the velocity-match limit-order matching engine
(protocol codecs, write-ahead log, order book, matching engine, SPSC ring)
together with proofs about the specified properties.

Machine integers are modelled as `Nat` (unsigned) and `Int` (signed) with
explicit reductions modulo `2 ^ 64` where the source relies on fixed-width
behaviour.  Byte buffers are `List Nat` whose elements are bytes (< 256).
-/

namespace VM

/-! ## Data model (src/order.rs) -/

inductive Side where
  | Bid
  | Ask
deriving DecidableEq, Repr

/-- Order as in `src/order.rs`: `id`, `trader_id`, `quantity`, `timestamp`
are `u64`; `price` is `i64`; `side` is the two-valued enum. -/
structure Order where
  id : Nat
  trader_id : Nat
  side : Side
  price : Int
  quantity : Nat
  timestamp : Nat
deriving DecidableEq, Repr

/-- Validity of the `u64`/`i64` fields of an `Order` (guaranteed by the Rust
types; our `Nat`/`Int` embedding states it explicitly). -/
def Order.valid (o : Order) : Prop :=
  o.id < 2 ^ 64 ∧ o.trader_id < 2 ^ 64 ∧ o.quantity < 2 ^ 64 ∧
    -(2 ^ 63 : Int) ≤ o.price ∧ o.price < 2 ^ 63

instance (o : Order) : Decidable o.valid := by
  unfold Order.valid; infer_instance

/-! ## Wire protocol (src/protocol.rs) -/

inductive ProtocolError where
  | BufferTooShort
  | UnknownMessageType (b : Nat)
  | InvalidSide (b : Nat)
  | ZeroQuantity
deriving DecidableEq, Repr

inductive EngineCommand where
  | NewOrder (o : Order)
  | CancelOrder (order_id : Nat)
deriving DecidableEq, Repr

def MSG_NEW_ORDER : Nat := 0x01
def MSG_CANCEL_ORDER : Nat := 0x02
def NEW_ORDER_SIZE : Nat := 40
def CANCEL_ORDER_SIZE : Nat := 16

/-- Little-endian encoding of `n` into `k` bytes (truncating above `256 ^ k`,
exactly as storing into a fixed-width field does). -/
def toLE : Nat → Nat → List Nat
  | 0, _ => []
  | k + 1, n => n % 256 :: toLE k (n / 256)

/-- Little-endian recombination of a byte list. -/
def fromLE : List Nat → Nat
  | [] => 0
  | b :: bs => b + 256 * fromLE bs

/-- Contiguous slice `buf[off .. off+n)`. -/
def readBytes (buf : List Nat) (off n : Nat) : List Nat :=
  (buf.drop off).take n

/-- Byte access used after an explicit length check in the source. -/
def byteAt (buf : List Nat) (i : Nat) : Nat := buf.getD i 0

def read_u32 (buf : List Nat) (off : Nat) : Nat := fromLE (readBytes buf off 4)

def read_u64 (buf : List Nat) (off : Nat) : Nat := fromLE (readBytes buf off 8)

/-- Reads 8 bytes and reinterprets them as a two's-complement `i64`
(`i64::from_le_bytes`). -/
def read_i64 (buf : List Nat) (off : Nat) : Int :=
  if read_u64 buf off < 2 ^ 63 then (read_u64 buf off : Int)
  else (read_u64 buf off : Int) - 2 ^ 64

/-- Two's-complement `u64` image of an `i64` value (`i64::to_le_bytes` viewed
as a number). -/
def intToU64 (p : Int) : Nat := (p % (2 ^ 64 : Int)).toNat

def decode_side (v : Nat) : Except ProtocolError Side :=
  if v = 0 then .ok .Bid
  else if v = 1 then .ok .Ask
  else .error (.InvalidSide v)

def encode_side : Side → Nat
  | .Bid => 0
  | .Ask => 1

/-- Mirrors `protocol::decode_new_order`: length check, side, then the fixed
offsets; zero quantity rejected last; timestamp always set to 0. -/
def decode_new_order (buf : List Nat) : Except ProtocolError Order :=
  if buf.length < NEW_ORDER_SIZE then .error .BufferTooShort
  else
    match decode_side (byteAt buf 1) with
    | .error e => .error e
    | .ok side =>
      let order_id := read_u64 buf 8
      let trader_id := read_u64 buf 16
      let price := read_i64 buf 24
      let quantity := read_u64 buf 32
      if quantity = 0 then .error .ZeroQuantity
      else .ok { id := order_id, trader_id := trader_id, side := side,
                 price := price, quantity := quantity, timestamp := 0 }

/-- Mirrors `protocol::encode_new_order`: the 40 bytes written into the
zero-filled buffer.  The timestamp field is not serialized. -/
def encode_new_order (o : Order) : List Nat :=
  MSG_NEW_ORDER :: encode_side o.side :: ([0, 0, 0, 0, 0, 0] : List Nat) ++
    toLE 8 o.id ++ toLE 8 o.trader_id ++ toLE 8 (intToU64 o.price) ++
    toLE 8 o.quantity

def decode_cancel_order (buf : List Nat) : Except ProtocolError Nat :=
  if buf.length < CANCEL_ORDER_SIZE then .error .BufferTooShort
  else .ok (read_u64 buf 8)

/-- Mirrors `protocol::encode_cancel_order`: 16 bytes. -/
def encode_cancel_order (order_id : Nat) : List Nat :=
  MSG_CANCEL_ORDER :: ([0, 0, 0, 0, 0, 0, 0] : List Nat) ++ toLE 8 order_id

/-- Mirrors `protocol::decode_message`: dispatch on the first byte. -/
def decode_message (buf : List Nat) : Except ProtocolError EngineCommand :=
  match buf.head? with
  | none => .error .BufferTooShort
  | some t =>
    if t = MSG_NEW_ORDER then
      match decode_new_order buf with
      | .ok o => .ok (.NewOrder o)
      | .error e => .error e
    else if t = MSG_CANCEL_ORDER then
      match decode_cancel_order buf with
      | .ok id => .ok (.CancelOrder id)
      | .error e => .error e
    else .error (.UnknownMessageType t)

/-! ## CRC-32 (crc32fast::hash — standard reflected CRC-32/ISO-HDLC) -/

def CRC_POLY : Nat := 0xEDB88320

def crcStep (c : Nat) : Nat :=
  if c % 2 = 1 then (c / 2) ^^^ CRC_POLY else c / 2

def crcSteps : Nat → Nat → Nat
  | 0, c => c
  | k + 1, c => crcSteps k (crcStep c)

def crcByte (c b : Nat) : Nat := crcSteps 8 (c ^^^ b)

def crc32 (data : List Nat) : Nat :=
  (data.foldl crcByte 0xFFFFFFFF) ^^^ 0xFFFFFFFF

/-! ## Write-ahead log (src/wal.rs)

The mapped file is a byte list; a live `Wal`'s `data` is exactly the written
prefix `mmap[0 .. write_pos)` (appends go to `write_pos`; `ensure_capacity`
only extends the zero tail, never changing written bytes). -/

def HEADER_SIZE : Nat := 8
def ALIGNMENT : Nat := 8

def align_up (n : Nat) : Nat := (n + ALIGNMENT - 1) / ALIGNMENT * ALIGNMENT

inductive WalError where
  | Protocol (e : ProtocolError)
  | Corruption (offset : Nat)
  | TruncatedRecord (offset : Nat)
deriving DecidableEq, Repr

def encode_command : EngineCommand → List Nat
  | .NewOrder o => encode_new_order o
  | .CancelOrder id => encode_cancel_order id

/-- On-disk bytes of one record:
`[payload_len u32][crc32 u32][payload][zero padding to 8-byte alignment]`. -/
def encodeRecord (cmd : EngineCommand) : List Nat :=
  let payload := encode_command cmd
  let n := payload.length
  toLE 4 n ++ toLE 4 (crc32 payload) ++ payload ++
    List.replicate (align_up (HEADER_SIZE + n) - (HEADER_SIZE + n)) 0

structure Wal where
  data : List Nat
  write_pos : Nat
  record_count : Nat
deriving DecidableEq, Repr

/-- A freshly created WAL file (all-zero mapping scans to an empty log). -/
def Wal.empty : Wal := ⟨[], 0, 0⟩

/-- Mirrors `Wal::append`: encode, write header + payload + padding at
`write_pos`, advance, count.  Returns the 1-based record number. -/
def Wal.append (w : Wal) (cmd : EngineCommand) : Wal × Nat :=
  let r := encodeRecord cmd
  (⟨w.data ++ r, w.write_pos + r.length, w.record_count + 1⟩, w.record_count + 1)

def Wal.appendAll (w : Wal) (cmds : List EngineCommand) : Wal :=
  cmds.foldl (fun acc c => (acc.append c).1) w

/-- Loop body of `WalIterator::next`, iterated to exhaustion: returns the
yielded `(record_number, command)` pairs and the terminating error, if any.
`fuel` bounds the iteration count; every step advances `pos` by at least 16
bytes, so `endPos + 1` steps always suffice. -/
def iterGo (data : List Nat) (endPos startRecord : Nat) :
    Nat → Nat → Nat → List (Nat × EngineCommand) × Option WalError
  | 0, _, _ => ([], none)
  | fuel + 1, pos, currentRecord =>
    if pos + HEADER_SIZE > endPos then ([], none)
    else
      let payload_len := read_u32 data pos
      if payload_len = 0 then ([], none)
      else
        let record_size := align_up (HEADER_SIZE + payload_len)
        if pos + record_size > endPos then ([], some (.TruncatedRecord pos))
        else
          let stored_crc := read_u32 data (pos + 4)
          let payload := readBytes data (pos + HEADER_SIZE) payload_len
          if stored_crc ≠ crc32 payload then ([], some (.Corruption pos))
          else
            let nextRecord := currentRecord + 1
            if nextRecord ≤ startRecord then
              iterGo data endPos startRecord fuel (pos + record_size) nextRecord
            else
              match decode_message payload with
              | .ok cmd =>
                let rest := iterGo data endPos startRecord fuel (pos + record_size) nextRecord
                ((nextRecord, cmd) :: rest.1, rest.2)
              | .error e => ([], some (.Protocol e))

/-- Mirrors `Wal::iter_from` driven to exhaustion. -/
def Wal.iter_from (w : Wal) (start_record : Nat) :
    List (Nat × EngineCommand) × Option WalError :=
  iterGo w.data w.write_pos start_record (w.write_pos + 1) 0 0

/-- Loop of `Wal::scan_to_end`: `(pos, count)` after the scan, i.e. the
restored `(write_pos, record_count)`. -/
def scanGo (data : List Nat) (fileLen : Nat) : Nat → Nat → Nat → Nat × Nat
  | 0, pos, count => (pos, count)
  | fuel + 1, pos, count =>
    if pos + HEADER_SIZE > fileLen then (pos, count)
    else
      let payload_len := read_u32 data pos
      if payload_len = 0 then (pos, count)
      else
        let record_size := align_up (HEADER_SIZE + payload_len)
        if pos + record_size > fileLen then (pos, count)
        else
          let stored_crc := read_u32 data (pos + 4)
          let computed := crc32 (readBytes data (pos + HEADER_SIZE) payload_len)
          if stored_crc ≠ computed then (pos, count)
          else scanGo data fileLen fuel (pos + record_size) (count + 1)

/-- Mirrors `Wal::scan_to_end` on a mapped region of `fileLen` bytes. -/
def scan_to_end (data : List Nat) (fileLen : Nat) : Nat × Nat :=
  scanGo data fileLen (fileLen + 1) 0 0

/-! ## Order book (src/book.rs, src/arena.rs)

A price level's arena-backed intrusive FIFO list is embedded as the `List
Order` of its nodes in head-to-tail order (`PriceLevel.count` is its length,
`PriceLevel.qty` the sum of quantities).  The two `HashMap<i64, PriceLevel>`
are association lists; `best_bid`/`best_ask` are the cached optionals.  The
`order_index : id → arena slot` map is embedded as `id → (side, price)` of
the node in that slot, which is what every read of it uses.  Arena occupancy
equals `order_index.length` (the book asserts this after each operation), so
`Arena::alloc` fails exactly when `order_index.length` reaches capacity. -/

abbrev Level := List Order

inductive BookError where
  | DuplicateOrderId (id : Nat)
  | OrderNotFound (id : Nat)
  | PriceLevelNotFound (price : Int)
  | FillExceedsQuantity (available requested : Nat)
  | ArenaFull
deriving DecidableEq, Repr

/-- Association-list lookup (first match). -/
def lookupA {κ β : Type} [DecidableEq κ] : List (κ × β) → κ → Option β
  | [], _ => none
  | (k, v) :: rest, key => if k = key then some v else lookupA rest key

/-- Association-list insert-or-replace (keyed update). -/
def putA {κ β : Type} [DecidableEq κ] : List (κ × β) → κ → β → List (κ × β)
  | [], key, v => [(key, v)]
  | (k, w) :: rest, key, v =>
    if k = key then (k, v) :: rest else (k, w) :: putA rest key v

/-- Association-list removal of the first binding of a key. -/
def removeA {κ β : Type} [DecidableEq κ] : List (κ × β) → κ → List (κ × β)
  | [], _ => []
  | (k, w) :: rest, key => if k = key then rest else (k, w) :: removeA rest key

def keysA {κ β : Type} (l : List (κ × β)) : List κ := l.map Prod.fst

/-- Maximum of a key list (`keys().copied().max()`). -/
def listMax : List Int → Option Int
  | [] => none
  | x :: xs => some (match listMax xs with | none => x | some m => max x m)

/-- Minimum of a key list (`keys().copied().min()`). -/
def listMin : List Int → Option Int
  | [] => none
  | x :: xs => some (match listMin xs with | none => x | some m => min x m)

structure OrderBook where
  cap : Nat
  bids : List (Int × Level)
  asks : List (Int × Level)
  best_bid : Option Int
  best_ask : Option Int
  order_index : List (Nat × Side × Int)
deriving DecidableEq, Repr

def OrderBook.emptyWith (cap : Nat) : OrderBook := ⟨cap, [], [], none, none, []⟩

def levelsOf (b : OrderBook) : Side → List (Int × Level)
  | .Bid => b.bids
  | .Ask => b.asks

def OrderBook.order_count (b : OrderBook) : Nat := b.order_index.length

/-- Mirrors `OrderBook::update_best_after_insert` (monotone cached update). -/
def update_best_after_insert (b : OrderBook) (side : Side) (price : Int) :
    OrderBook :=
  match side with
  | .Bid => { b with best_bid := some (b.best_bid.elim price (fun m => max m price)) }
  | .Ask => { b with best_ask := some (b.best_ask.elim price (fun m => min m price)) }

/-- Mirrors `OrderBook::insert_order`: duplicate-id check, arena alloc
(fails iff the arena is at capacity), `push_back` onto the level's FIFO,
index insert, best-price update. -/
def insert_order (b : OrderBook) (o : Order) : Except BookError OrderBook :=
  if (lookupA b.order_index o.id).isSome then .error (.DuplicateOrderId o.id)
  else if b.cap ≤ b.order_index.length then .error .ArenaFull
  else
    let q := (lookupA (levelsOf b o.side) o.price).getD []
    let withLevel :=
      match o.side with
      | .Bid => { b with bids := putA b.bids o.price (q ++ [o]) }
      | .Ask => { b with asks := putA b.asks o.price (q ++ [o]) }
    let withIndex :=
      { withLevel with order_index := withLevel.order_index ++ [(o.id, o.side, o.price)] }
    .ok (update_best_after_insert withIndex o.side o.price)

/-- Mirrors `OrderBook::cancel_order`.  Returns the outcome together with the
resulting book: the index entry is removed before the level lookup can fail,
exactly as in the source.  The inner `find?` retrieves the node the index
entry referenced (the unique resting order with this id on every reachable
book). -/
def cancel_order (b : OrderBook) (order_id : Nat) :
    Except BookError Order × OrderBook :=
  match lookupA b.order_index order_id with
  | none => (.error (.OrderNotFound order_id), b)
  | some (side, price) =>
    let b1 := { b with order_index := removeA b.order_index order_id }
    match lookupA (levelsOf b1 side) price with
    | none => (.error (.PriceLevelNotFound price), b1)
    | some q =>
      match q.find? (fun o => o.id == order_id) with
      | none => (.error (.OrderNotFound order_id), b1)
      | some order =>
        let q' := q.eraseP (fun o => o.id == order_id)
        if q'.isEmpty then
          match side with
          | .Bid =>
            let bids' := removeA b1.bids price
            (.ok order, { b1 with bids := bids', best_bid := listMax (keysA bids') })
          | .Ask =>
            let asks' := removeA b1.asks price
            (.ok order, { b1 with asks := asks', best_ask := listMin (keysA asks') })
        else
          match side with
          | .Bid => (.ok order, { b1 with bids := putA b1.bids price q' })
          | .Ask => (.ok order, { b1 with asks := putA b1.asks price q' })

/-- Mirrors `OrderBook::peek_front`. -/
def peek_front (b : OrderBook) (side : Side) (price : Int) : Option Order :=
  match lookupA (levelsOf b side) price with
  | none => none
  | some q => q.head?

/-- Mirrors `OrderBook::reduce_front_quantity`. -/
def reduce_front_quantity (b : OrderBook) (side : Side) (price : Int)
    (fill_qty : Nat) : Except BookError (Nat × OrderBook) :=
  match lookupA (levelsOf b side) price with
  | none => .error (.PriceLevelNotFound price)
  | some q =>
    match q with
    | [] => .error (.PriceLevelNotFound price)
    | front :: rest =>
      if front.quantity < fill_qty then
        .error (.FillExceedsQuantity front.quantity fill_qty)
      else
        let remaining := front.quantity - fill_qty
        if remaining = 0 then
          let index' := removeA b.order_index front.id
          if rest.isEmpty then
            match side with
            | .Bid =>
              let bids' := removeA b.bids price
              .ok (0, { b with bids := bids', order_index := index',
                               best_bid := listMax (keysA bids') })
            | .Ask =>
              let asks' := removeA b.asks price
              .ok (0, { b with asks := asks', order_index := index',
                               best_ask := listMin (keysA asks') })
          else
            match side with
            | .Bid => .ok (0, { b with bids := putA b.bids price rest,
                                       order_index := index' })
            | .Ask => .ok (0, { b with asks := putA b.asks price rest,
                                       order_index := index' })
        else
          let newLevel := { front with quantity := remaining } :: rest
          match side with
          | .Bid => .ok (remaining, { b with bids := putA b.bids price newLevel })
          | .Ask => .ok (remaining, { b with asks := putA b.asks price newLevel })

/-! ## Matching engine (src/matching.rs) -/

structure Fill where
  taker_order_id : Nat
  maker_order_id : Nat
  price : Int
  quantity : Nat
  maker_fully_filled : Bool
deriving DecidableEq, Repr

inductive OrderStatus where
  | FullyFilled
  | PartiallyFilled
  | Resting
  | CancelledSelfTrade
deriving DecidableEq, Repr

structure AddOrderResult where
  order_id : Nat
  status : OrderStatus
  fills : List Fill
deriving DecidableEq, Repr

inductive MatchingError where
  | Book (e : BookError)
  | ZeroQuantity
deriving DecidableEq, Repr

def oppSide : Side → Side
  | .Bid => .Ask
  | .Ask => .Bid

/-- Best price on the side opposite the taker. -/
def bestOpp (b : OrderBook) : Side → Option Int
  | .Bid => b.best_ask
  | .Ask => b.best_bid

/-- Crossing test from the loop guards: a bid taker matches while
`best_ask <= order.price`, an ask taker while `best_bid >= order.price`. -/
def crossesPrice (side : Side) (p limit : Int) : Bool :=
  match side with
  | .Bid => decide (p ≤ limit)
  | .Ask => decide (limit ≤ p)

structure LoopOut where
  fills : List Fill
  rem : Nat
  selfTrade : Bool
  book : OrderBook
  err : Option BookError
deriving DecidableEq, Repr

/-- The matching `while` loop of `MatchingEngine::add_order` (the source
spells it out once per taker side; the per-iteration structure is identical
with the opposite side's best price, peek, reduce, and comparison direction).
`fuel` bounds the iteration count; `add_order` passes the order quantity,
which suffices because every iteration on a reachable book fills at least 1.
An error from `reduce_front_quantity` stops the loop and is propagated, with
the book as mutated so far. -/
def matchLoop (side : Side) (trader_id order_id : Nat) (limit : Int) :
    Nat → Nat → OrderBook → LoopOut
  | 0, rem, b => ⟨[], rem, false, b, none⟩
  | fuel + 1, rem, b =>
    if rem = 0 then ⟨[], rem, false, b, none⟩
    else
      match bestOpp b side with
      | none => ⟨[], rem, false, b, none⟩
      | some p =>
        if crossesPrice side p limit then
          match peek_front b (oppSide side) p with
          | none => ⟨[], rem, false, b, none⟩
          | some maker =>
            if maker.trader_id = trader_id then ⟨[], rem, true, b, none⟩
            else
              let fill_qty := min rem maker.quantity
              match reduce_front_quantity b (oppSide side) p fill_qty with
              | .error e => ⟨[], rem, false, b, some e⟩
              | .ok (maker_remaining, b') =>
                let f : Fill := ⟨order_id, maker.id, maker.price, fill_qty,
                                 maker_remaining == 0⟩
                let out := matchLoop side trader_id order_id limit fuel
                             (rem - fill_qty) b'
                ⟨f :: out.fills, out.rem, out.selfTrade, out.book, out.err⟩
        else ⟨[], rem, false, b, none⟩

/-- Mirrors `MatchingEngine::add_order`.  Returns the outcome paired with the
resulting book (the engine mutates its book in place; on an error mid-match
the fills applied so far remain applied). -/
def add_order (b : OrderBook) (o : Order) :
    Except MatchingError AddOrderResult × OrderBook :=
  if o.quantity = 0 then (.error .ZeroQuantity, b)
  else
    let out := matchLoop o.side o.trader_id o.id o.price o.quantity o.quantity b
    match out.err with
    | some e => (.error (.Book e), out.book)
    | none =>
      if out.selfTrade then
        (.ok ⟨o.id, .CancelledSelfTrade, out.fills⟩, out.book)
      else if out.rem = 0 then
        (.ok ⟨o.id, .FullyFilled, out.fills⟩, out.book)
      else
        match insert_order out.book { o with quantity := out.rem } with
        | .error e => (.error (.Book e), out.book)
        | .ok b' =>
          (.ok ⟨o.id, if out.fills.isEmpty then .Resting else .PartiallyFilled,
                out.fills⟩, b')

/-- One client interaction with the engine. -/
inductive EngineOp where
  | add (o : Order)
  | cancel (id : Nat)
deriving DecidableEq, Repr

/-- Runs a sequence of `add_order` / `cancel_order` calls from an empty
engine with the given arena capacity, keeping the book across calls. -/
def runOps (cap : Nat) (ops : List EngineOp) : OrderBook :=
  ops.foldl
    (fun b op =>
      match op with
      | .add o => (add_order b o).2
      | .cancel id => (cancel_order b id).2)
    (OrderBook.emptyWith cap)

def sumFills (fills : List Fill) : Nat := (fills.map Fill.quantity).sum

/-- Well-formedness of a book, maintained by every reachable state: price
maps have distinct keys, levels are nonempty FIFO lists of orders at their
own price with positive quantity, the cached bests equal the key extrema,
and the book is uncrossed. -/
def WF (b : OrderBook) : Prop :=
  (keysA b.bids).Nodup ∧ (keysA b.asks).Nodup ∧
  (∀ p q, lookupA b.bids p = some q →
    q ≠ [] ∧ ∀ o ∈ q, o.price = p ∧ 0 < o.quantity) ∧
  (∀ p q, lookupA b.asks p = some q →
    q ≠ [] ∧ ∀ o ∈ q, o.price = p ∧ 0 < o.quantity) ∧
  b.best_bid = listMax (keysA b.bids) ∧
  b.best_ask = listMin (keysA b.asks) ∧
  (∀ pb ∈ keysA b.bids, ∀ pa ∈ keysA b.asks, pb < pa)

/-- Crossing precondition under which an insert keeps the book uncrossed. -/
def insertSafe (b : OrderBook) (o : Order) : Prop :=
  match o.side with
  | .Bid => ∀ pa ∈ keysA b.asks, o.price < pa
  | .Ask => ∀ pb ∈ keysA b.bids, pb < o.price


/-! ## SPSC ring buffer (src/ring.rs), used single-threaded

One state holds the shared atomics (`head`, `tail`), the slot array, and the
cursor caches of the `Producer` and `Consumer` halves.  Cursors are `usize`
values, wrapping modulo `2 ^ 64`; slot indexing masks with `cap - 1`.  A slot
is `Option α`: `none` is the `MaybeUninit` state, never read on the paths the
protocol allows. -/

def USIZE_MOD : Nat := 2 ^ 64

/-- The `usize::wrapping_sub` occupancy computation, for values `< 2 ^ 64`. -/
def wrappingSub (a b : Nat) : Nat := (a + USIZE_MOD - b) % USIZE_MOD

structure Ring (α : Type) where
  cap : Nat
  slots : List (Option α)
  head : Nat
  tail : Nat
  pCachedHead : Nat
  pCachedTail : Nat
  cCachedHead : Nat
  cCachedTail : Nat
deriving DecidableEq, Repr

/-- Mirrors `ring_buffer(capacity)` (capacity is asserted to be a power of
two at construction; theorems carry that hypothesis). -/
def ring_buffer (α : Type) (capacity : Nat) : Ring α :=
  ⟨capacity, List.replicate capacity none, 0, 0, 0, 0, 0, 0⟩

/-- Slot write + head publication tail of `Producer::push`. -/
def Ring.pushWrite {α : Type} (r : Ring α) (head : Nat) (v : α) :
    Option α × Ring α :=
  let idx := head &&& (r.cap - 1)
  let h' := (head + 1) % USIZE_MOD
  (none, { r with slots := r.slots.set idx (some v), head := h', pCachedHead := h' })

/-- Mirrors `Producer::push`: fast-path check against the cached tail, a
single refresh from the shared `tail` on apparent fullness, `Full(value)`
(here `some v`) if still full. -/
def Ring.push {α : Type} (r : Ring α) (v : α) : Option α × Ring α :=
  let head := r.pCachedHead
  if wrappingSub head r.pCachedTail = r.cap then
    let r1 := { r with pCachedTail := r.tail }
    if wrappingSub head r1.pCachedTail = r1.cap then (some v, r1)
    else r1.pushWrite head v
  else r.pushWrite head v

/-- Slot read + tail publication tail of `Consumer::pop`. -/
def Ring.popRead {α : Type} (r : Ring α) (tail : Nat) :
    Option (Option α) × Ring α :=
  let idx := tail &&& (r.cap - 1)
  let t' := (tail + 1) % USIZE_MOD
  (some (r.slots.getD idx none), { r with tail := t', cCachedTail := t' })

/-- Mirrors `Consumer::pop`: fast-path check against the cached head, a
single refresh from the shared `head` on apparent emptiness, `Empty`
(here `none`) if still empty. -/
def Ring.pop {α : Type} (r : Ring α) : Option (Option α) × Ring α :=
  let tail := r.cCachedTail
  if tail = r.cCachedHead then
    let r1 := { r with cCachedHead := r.head }
    if tail = r1.cCachedHead then (none, r1)
    else r1.popRead tail
  else r.popRead tail

inductive RingOp (α : Type) where
  | push (v : α)
  | pop
deriving DecidableEq, Repr

/-- Runs a sequence of push/pop calls on the ring; returns the final state,
the values accepted by `push`, and the slot reads returned by `pop`. -/
def runRing {α : Type} : Ring α → List (RingOp α) → Ring α × List α × List (Option α)
  | r, [] => (r, [], [])
  | r, .push v :: ops =>
    let s := r.push v
    let rest := runRing s.2 ops
    (rest.1, (if s.1.isNone then [v] else []) ++ rest.2.1, rest.2.2)
  | r, .pop :: ops =>
    let s := r.pop
    let rest := runRing s.2 ops
    (rest.1, rest.2.1, (match s.1 with | none => [] | some v => [v]) ++ rest.2.2)

/-- Reference bounded FIFO queue: the same op sequence on a plain list.
Returns the accepted pushes and the popped values. -/
def runQueue {α : Type} (cap : Nat) : List α → List (RingOp α) → List α × List α
  | _, [] => ([], [])
  | q, .push v :: ops =>
    if q.length = cap then runQueue cap q ops
    else
      let rest := runQueue cap (q ++ [v]) ops
      (v :: rest.1, rest.2)
  | q, .pop :: ops =>
    match q with
    | [] => runQueue cap q ops
    | x :: xs =>
      let rest := runQueue cap xs ops
      (rest.1, x :: rest.2)

/-- Coupling invariant between a ring state and the abstract queue it holds:
ghost unbounded cursors `H`, `T` (head/tail), `PT` (producer's cached tail),
`CH` (consumer's cached head) project to the stored `usize` values, the
occupancy is the queue length, and the live slots hold the queue elements. -/
def RingInv {α : Type} (r : Ring α) (q : List α) : Prop :=
  ∃ H T PT CH : Nat,
    0 < r.cap ∧ (∃ k, k < 64 ∧ r.cap = 2 ^ k) ∧
    r.slots.length = r.cap ∧
    r.head = H % USIZE_MOD ∧ r.tail = T % USIZE_MOD ∧
    r.pCachedHead = H % USIZE_MOD ∧ r.pCachedTail = PT % USIZE_MOD ∧
    r.cCachedTail = T % USIZE_MOD ∧ r.cCachedHead = CH % USIZE_MOD ∧
    T ≤ H ∧ H - T = q.length ∧ q.length ≤ r.cap ∧
    PT ≤ T ∧ H ≤ PT + r.cap ∧ T ≤ CH ∧ CH ≤ H ∧
    ∀ i, (h : i < q.length) →
      r.slots.getD ((T + i) % r.cap) none = some (q.get ⟨i, h⟩)

/-! ## Derived definitions used by the statements -/

/-- The command as it comes back from the log: `encode_new_order` does not
serialize the timestamp and `decode_new_order` sets it to 0. -/
def zeroTs : EngineCommand → EngineCommand
  | .NewOrder o => .NewOrder { o with timestamp := 0 }
  | .CancelOrder id => .CancelOrder id

/-- Field-width validity of a command (guaranteed by the Rust types and the
`quantity > 0` invariant every constructed order satisfies). -/
def validCmd : EngineCommand → Prop
  | .NewOrder o => o.valid ∧ 0 < o.quantity
  | .CancelOrder id => id < 2 ^ 64

instance (c : EngineCommand) : Decidable (validCmd c) := by
  cases c <;> simp [validCmd] <;> infer_instance

instance {ε α : Type} [DecidableEq ε] [DecidableEq α] :
    DecidableEq (Except ε α) := fun a b =>
  match a, b with
  | .ok x, .ok y =>
    if h : x = y then isTrue (by rw [h]) else isFalse (by simp [h])
  | .error x, .error y =>
    if h : x = y then isTrue (by rw [h]) else isFalse (by simp [h])
  | .ok _, .error _ => isFalse (by simp)
  | .error _, .ok _ => isFalse (by simp)

/-- Pairs each element with its 1-based record number, starting after `k`. -/
def numberFrom {α : Type} : Nat → List α → List (Nat × α)
  | _, [] => []
  | k, x :: xs => (k + 1, x) :: numberFrom (k + 1) xs

/-- Bytes of a WAL holding exactly `cmds`. -/
def walBytes (cmds : List EngineCommand) : List Nat :=
  (cmds.map encodeRecord).flatten

/-- Alignment padding of one record. -/
def recPad (c : EngineCommand) : List Nat :=
  List.replicate
    (align_up (HEADER_SIZE + (encode_command c).length) -
      (HEADER_SIZE + (encode_command c).length)) 0

/-! # Proofs

## Little-endian encoding and byte-slice lemmas -/

theorem toLE_length (k n : Nat) : (toLE k n).length = k := by
  induction k generalizing n with
  | zero => rfl
  | succ k ih => simp [toLE, ih]

theorem toLE_bytes_lt (k n : Nat) : ∀ b ∈ toLE k n, b < 256 := by
  induction k generalizing n with
  | zero => simp [toLE]
  | succ k ih =>
    intro b hb
    simp only [toLE, List.mem_cons] at hb
    rcases hb with h | h
    · omega
    · exact ih _ b h

theorem fromLE_toLE (k n : Nat) : fromLE (toLE k n) = n % 256 ^ k := by
  induction k generalizing n with
  | zero => simp [toLE, fromLE, Nat.mod_one]
  | succ k ih =>
    simp only [toLE, fromLE, ih]
    rw [pow_succ', Nat.mod_mul]

theorem fromLE_lt (l : List Nat) (h : ∀ b ∈ l, b < 256) :
    fromLE l < 256 ^ l.length := by
  induction l with
  | nil => simp [fromLE]
  | cons b bs ih =>
    have hb : b < 256 := h b (List.mem_cons_self b bs)
    have hrest := ih (fun x hx => h x (List.mem_cons_of_mem b hx))
    simp only [fromLE, List.length_cons, pow_succ']
    omega

theorem fromLE_replicate_zero (m : Nat) : fromLE (List.replicate m 0) = 0 := by
  induction m with
  | zero => rfl
  | succ m ih => simp [List.replicate, fromLE, ih]

theorem drop_add (l : List Nat) (i j : Nat) : l.drop (i + j) = (l.drop i).drop j := by
  rw [List.drop_drop, Nat.add_comm]

theorem drop_length_append {α : Type} (a b : List α) (n : Nat) (h : a.length = n) :
    (a ++ b).drop n = b := by
  rw [← h, List.drop_left]

theorem readBytes_of_drop (data pfx rest : List Nat) (pos n : Nat)
    (hd : data.drop pos = pfx ++ rest) (hn : pfx.length = n) :
    readBytes data pos n = pfx := by
  unfold readBytes
  rw [hd, ← hn, List.take_left]

/-! ## Protocol codec lemmas -/

theorem encode_new_order_split (o : Order) :
    encode_new_order o =
      ([MSG_NEW_ORDER, encode_side o.side, 0, 0, 0, 0, 0, 0] : List Nat) ++
        (toLE 8 o.id ++ (toLE 8 o.trader_id ++
          (toLE 8 (intToU64 o.price) ++ toLE 8 o.quantity))) := by
  simp [encode_new_order, List.append_assoc]

theorem encode_new_order_length (o : Order) :
    (encode_new_order o).length = 40 := by
  rw [encode_new_order_split]
  simp [toLE_length]

theorem encode_new_order_drop8 (o : Order) :
    (encode_new_order o).drop 8 =
      toLE 8 o.id ++ (toLE 8 o.trader_id ++
        (toLE 8 (intToU64 o.price) ++ toLE 8 o.quantity)) := by
  rw [encode_new_order_split]
  exact drop_length_append _ _ 8 rfl

theorem encode_new_order_drop16 (o : Order) :
    (encode_new_order o).drop 16 =
      toLE 8 o.trader_id ++ (toLE 8 (intToU64 o.price) ++ toLE 8 o.quantity) := by
  have h : (16 : Nat) = 8 + 8 := rfl
  rw [h, drop_add, encode_new_order_drop8]
  exact drop_length_append _ _ 8 (toLE_length 8 o.id)

theorem encode_new_order_drop24 (o : Order) :
    (encode_new_order o).drop 24 =
      toLE 8 (intToU64 o.price) ++ toLE 8 o.quantity := by
  have h : (24 : Nat) = 16 + 8 := rfl
  rw [h, drop_add, encode_new_order_drop16]
  exact drop_length_append _ _ 8 (toLE_length 8 o.trader_id)

theorem encode_new_order_drop32 (o : Order) :
    (encode_new_order o).drop 32 = toLE 8 o.quantity := by
  have h : (32 : Nat) = 24 + 8 := rfl
  rw [h, drop_add, encode_new_order_drop24]
  exact drop_length_append _ _ 8 (toLE_length 8 (intToU64 o.price))

theorem read_u64_encode_id (o : Order) :
    read_u64 (encode_new_order o) 8 = o.id % 2 ^ 64 := by
  unfold read_u64
  rw [readBytes_of_drop (encode_new_order o) (toLE 8 o.id) _ 8 8
    (encode_new_order_drop8 o) (toLE_length 8 o.id), fromLE_toLE]
  norm_num

theorem read_u64_encode_trader (o : Order) :
    read_u64 (encode_new_order o) 16 = o.trader_id % 2 ^ 64 := by
  unfold read_u64
  rw [readBytes_of_drop (encode_new_order o) (toLE 8 o.trader_id) _ 16 8
    (encode_new_order_drop16 o) (toLE_length 8 o.trader_id), fromLE_toLE]
  norm_num

theorem read_u64_encode_price (o : Order) :
    read_u64 (encode_new_order o) 24 = intToU64 o.price % 2 ^ 64 := by
  unfold read_u64
  rw [readBytes_of_drop (encode_new_order o) (toLE 8 (intToU64 o.price)) _ 24 8
    (encode_new_order_drop24 o) (toLE_length 8 (intToU64 o.price)), fromLE_toLE]
  norm_num

theorem read_u64_encode_quantity (o : Order) :
    read_u64 (encode_new_order o) 32 = o.quantity % 2 ^ 64 := by
  unfold read_u64
  have hd : (encode_new_order o).drop 32 = toLE 8 o.quantity ++ [] := by
    rw [encode_new_order_drop32, List.append_nil]
  rw [readBytes_of_drop (encode_new_order o) (toLE 8 o.quantity) [] 32 8 hd
    (toLE_length 8 o.quantity), fromLE_toLE]
  norm_num

theorem intToU64_lt (p : Int) : intToU64 p < 2 ^ 64 := by
  unfold intToU64
  omega

theorem read_i64_encode_price (o : Order) (h1 : -(2 ^ 63 : Int) ≤ o.price)
    (h2 : o.price < 2 ^ 63) : read_i64 (encode_new_order o) 24 = o.price := by
  unfold read_i64
  rw [read_u64_encode_price, Nat.mod_eq_of_lt (intToU64_lt o.price)]
  unfold intToU64
  split <;> omega

theorem decode_encode_new_order (o : Order) (hv : o.valid) (hq : 0 < o.quantity) :
    decode_new_order (encode_new_order o) = .ok { o with timestamp := 0 } := by
  obtain ⟨hid, htr, hqv, hp1, hp2⟩ := hv
  have hlen : ¬ (encode_new_order o).length < NEW_ORDER_SIZE := by
    rw [encode_new_order_length]; norm_num [NEW_ORDER_SIZE]
  have hside : byteAt (encode_new_order o) 1 = encode_side o.side := by
    rw [encode_new_order_split]; rfl
  have hqread : read_u64 (encode_new_order o) 32 = o.quantity := by
    rw [read_u64_encode_quantity, Nat.mod_eq_of_lt hqv]
  cases hos : o.side with
  | Bid =>
    simp [decode_new_order, hlen, hside, hos, encode_side, decode_side, hqread,
      read_u64_encode_id, read_u64_encode_trader, read_i64_encode_price o hp1 hp2,
      hq.ne'] <;> omega
  | Ask =>
    simp [decode_new_order, hlen, hside, hos, encode_side, decode_side, hqread,
      read_u64_encode_id, read_u64_encode_trader, read_i64_encode_price o hp1 hp2,
      hq.ne'] <;> omega

theorem encode_cancel_order_length (id : Nat) :
    (encode_cancel_order id).length = 16 := by
  simp [encode_cancel_order, toLE_length]

theorem read_u64_encode_cancel (id : Nat) :
    read_u64 (encode_cancel_order id) 8 = id % 2 ^ 64 := by
  unfold read_u64
  have hd : (encode_cancel_order id).drop 8 = toLE 8 id ++ [] := by
    have hsplit : encode_cancel_order id =
        ((MSG_CANCEL_ORDER : Nat) :: ([0, 0, 0, 0, 0, 0, 0] : List Nat)) ++ toLE 8 id := by
      simp [encode_cancel_order]
    rw [hsplit, List.append_nil]
    exact drop_length_append _ _ 8 rfl
  rw [readBytes_of_drop (encode_cancel_order id) (toLE 8 id) [] 8 8 hd
    (toLE_length 8 id), fromLE_toLE]
  norm_num

theorem decode_encode_cancel_order (id : Nat) (h : id < 2 ^ 64) :
    decode_cancel_order (encode_cancel_order id) = .ok id := by
  unfold decode_cancel_order
  rw [if_neg (by rw [encode_cancel_order_length]; norm_num [CANCEL_ORDER_SIZE]),
    read_u64_encode_cancel, Nat.mod_eq_of_lt h]

theorem encode_side_lt (s : Side) : encode_side s < 256 := by
  cases s <;> simp [encode_side]

theorem encode_new_order_bytes_lt (o : Order) :
    ∀ b ∈ encode_new_order o, b < 256 := by
  intro b hb
  rw [encode_new_order_split] at hb
  simp only [List.mem_append, List.mem_cons, List.mem_singleton] at hb
  rcases hb with (h | h | h | h | h | h | h | h | hf) | h | h | h | h
  all_goals first
    | (subst h; simp [MSG_NEW_ORDER])
    | (subst h; exact encode_side_lt o.side)
    | exact toLE_bytes_lt _ _ _ (by assumption)
    | simp at hf

theorem encode_cancel_order_bytes_lt (id : Nat) :
    ∀ b ∈ encode_cancel_order id, b < 256 := by
  intro b hb
  simp only [encode_cancel_order, List.cons_append, List.mem_cons,
    List.mem_append, List.mem_singleton] at hb
  rcases hb with h | h | h | h | h | h | h | h | h
  all_goals first
    | (subst h; simp [MSG_CANCEL_ORDER])
    | exact toLE_bytes_lt 8 id b (by simpa using h)

theorem encode_command_bytes_lt (c : EngineCommand) :
    ∀ b ∈ encode_command c, b < 256 := by
  cases c with
  | NewOrder o => exact encode_new_order_bytes_lt o
  | CancelOrder id => exact encode_cancel_order_bytes_lt id

/-! ## CRC-32 range and WAL record-structure lemmas -/

theorem crcStep_lt (c : Nat) (h : c < 2 ^ 32) : crcStep c < 2 ^ 32 := by
  unfold crcStep
  have hhalf : c / 2 < 2 ^ 32 := by omega
  split
  · exact Nat.xor_lt_two_pow hhalf (by norm_num [CRC_POLY])
  · exact hhalf

theorem crcSteps_lt (k c : Nat) (h : c < 2 ^ 32) : crcSteps k c < 2 ^ 32 := by
  induction k generalizing c with
  | zero => exact h
  | succ k ih => exact ih _ (crcStep_lt c h)

theorem crcByte_lt (c b : Nat) (hc : c < 2 ^ 32) (hb : b < 256) :
    crcByte c b < 2 ^ 32 := by
  unfold crcByte
  exact crcSteps_lt 8 _ (Nat.xor_lt_two_pow hc (by omega))

theorem foldl_crcByte_lt (l : List Nat) :
    ∀ c, c < 2 ^ 32 → (∀ b ∈ l, b < 256) → l.foldl crcByte c < 2 ^ 32 := by
  induction l with
  | nil => intro c hc _; exact hc
  | cons b bs ih =>
    intro c hc hl
    simp only [List.foldl_cons]
    exact ih _ (crcByte_lt c b hc (hl b (List.mem_cons_self b bs)))
      (fun x hx => hl x (List.mem_cons_of_mem b hx))

theorem crc32_lt (data : List Nat) (h : ∀ b ∈ data, b < 256) :
    crc32 data < 2 ^ 32 := by
  unfold crc32
  exact Nat.xor_lt_two_pow (foldl_crcByte_lt data _ (by norm_num) h) (by norm_num)

theorem encode_command_length_cases (c : EngineCommand) :
    (encode_command c).length = 40 ∨ (encode_command c).length = 16 := by
  cases c with
  | NewOrder o => exact Or.inl (encode_new_order_length o)
  | CancelOrder id => exact Or.inr (encode_cancel_order_length id)

theorem align_up_ge (n : Nat) : n ≤ align_up n := by
  unfold align_up ALIGNMENT
  omega

theorem encodeRecord_split (c : EngineCommand) :
    encodeRecord c =
      toLE 4 (encode_command c).length ++
        (toLE 4 (crc32 (encode_command c)) ++ (encode_command c ++ recPad c)) := by
  simp [encodeRecord, recPad, List.append_assoc]

theorem encodeRecord_length (c : EngineCommand) :
    (encodeRecord c).length = align_up (HEADER_SIZE + (encode_command c).length) := by
  have h := align_up_ge (HEADER_SIZE + (encode_command c).length)
  simp only [encodeRecord, List.length_append, toLE_length, List.length_replicate]
  unfold HEADER_SIZE at h ⊢
  omega

theorem encodeRecord_length_cases (c : EngineCommand) :
    (encodeRecord c).length = 48 ∨ (encodeRecord c).length = 24 := by
  rw [encodeRecord_length]
  rcases encode_command_length_cases c with h | h <;> rw [h]
  · left; rfl
  · right; rfl

theorem walBytes_cons (c : EngineCommand) (cs : List EngineCommand) :
    walBytes (c :: cs) = encodeRecord c ++ walBytes cs := by
  simp [walBytes]

theorem walBytes_nil : walBytes [] = [] := rfl

theorem walBytes_length_ge_count (cmds : List EngineCommand) :
    cmds.length ≤ (walBytes cmds).length := by
  induction cmds with
  | nil => simp [walBytes]
  | cons c cs ih =>
    rw [walBytes_cons]
    simp only [List.length_cons, List.length_append]
    rcases encodeRecord_length_cases c with h | h <;> omega

/-- Reading the length prefix of a record that starts at `pos`. -/
theorem record_read_len (data rest : List Nat) (pos : Nat) (c : EngineCommand)
    (hd : data.drop pos = encodeRecord c ++ rest) :
    read_u32 data pos = (encode_command c).length := by
  unfold read_u32
  rw [encodeRecord_split, List.append_assoc] at hd
  rw [readBytes_of_drop data (toLE 4 (encode_command c).length) _ pos 4 hd
    (toLE_length 4 _), fromLE_toLE]
  rcases encode_command_length_cases c with h | h <;> rw [h] <;> norm_num

/-- Skipping the length prefix of a record that starts at `pos`. -/
theorem record_drop4 (data rest : List Nat) (pos : Nat) (c : EngineCommand)
    (hd : data.drop pos = encodeRecord c ++ rest) :
    data.drop (pos + 4) =
      toLE 4 (crc32 (encode_command c)) ++ ((encode_command c ++ recPad c) ++ rest) := by
  rw [drop_add, hd, encodeRecord_split, List.append_assoc]
  rw [drop_length_append (toLE 4 (encode_command c).length) _ 4 (toLE_length 4 _),
    List.append_assoc]

/-- Skipping the whole header of a record that starts at `pos`. -/
theorem record_drop8 (data rest : List Nat) (pos : Nat) (c : EngineCommand)
    (hd : data.drop pos = encodeRecord c ++ rest) :
    data.drop (pos + 8) = encode_command c ++ (recPad c ++ rest) := by
  have e : pos + 8 = pos + 4 + 4 := by omega
  rw [e, drop_add, record_drop4 data rest pos c hd]
  rw [drop_length_append (toLE 4 (crc32 (encode_command c))) _ 4 (toLE_length 4 _),
    List.append_assoc]

/-- Reading the stored CRC of a record that starts at `pos`. -/
theorem record_read_crc (data rest : List Nat) (pos : Nat) (c : EngineCommand)
    (hd : data.drop pos = encodeRecord c ++ rest) :
    read_u32 data (pos + 4) = crc32 (encode_command c) := by
  unfold read_u32
  rw [readBytes_of_drop data (toLE 4 (crc32 (encode_command c))) _ (pos + 4) 4
    (record_drop4 data rest pos c hd) (toLE_length 4 _), fromLE_toLE]
  exact Nat.mod_eq_of_lt (by
    have h := crc32_lt (encode_command c) (encode_command_bytes_lt c)
    norm_num at h ⊢
    exact h)

/-- Reading the payload of a record that starts at `pos`. -/
theorem record_read_payload (data rest : List Nat) (pos : Nat) (c : EngineCommand)
    (hd : data.drop pos = encodeRecord c ++ rest) :
    readBytes data (pos + 8) (encode_command c).length = encode_command c :=
  readBytes_of_drop data (encode_command c) _ (pos + 8) _
    (record_drop8 data rest pos c hd) rfl

/-- Skipping a whole record. -/
theorem record_drop_full (data rest : List Nat) (pos : Nat) (c : EngineCommand)
    (hd : data.drop pos = encodeRecord c ++ rest) :
    data.drop (pos + align_up (HEADER_SIZE + (encode_command c).length)) = rest := by
  rw [drop_add, hd]
  exact drop_length_append _ _ _ (encodeRecord_length c)

theorem appendAll_spec (cmds : List EngineCommand) :
    ∀ w : Wal, Wal.appendAll w cmds =
      ⟨w.data ++ walBytes cmds, w.write_pos + (walBytes cmds).length,
       w.record_count + cmds.length⟩ := by
  induction cmds with
  | nil => intro w; simp [Wal.appendAll, walBytes_nil]
  | cons c cs ih =>
    intro w
    show Wal.appendAll ((w.append c).1) cs = _
    rw [ih]
    simp [Wal.append, walBytes_cons, List.append_assoc, List.length_append,
      Nat.add_assoc, Nat.add_comm 1 cs.length]

theorem appendAll_empty_spec (cmds : List EngineCommand) :
    Wal.appendAll Wal.empty cmds =
      ⟨walBytes cmds, (walBytes cmds).length, cmds.length⟩ := by
  rw [appendAll_spec]
  simp [Wal.empty]

theorem decode_message_encode_command (c : EngineCommand) (hv : validCmd c) :
    decode_message (encode_command c) = .ok (zeroTs c) := by
  cases c with
  | NewOrder o =>
    obtain ⟨hval, hq⟩ := hv
    have hhead : (encode_command (.NewOrder o)).head? = some MSG_NEW_ORDER := by
      simp [encode_command, encode_new_order]
    unfold decode_message
    rw [hhead]
    simp only [if_pos rfl]
    rw [show encode_command (.NewOrder o) = encode_new_order o from rfl,
      decode_encode_new_order o hval hq]
    rfl
  | CancelOrder id =>
    have hhead : (encode_command (.CancelOrder id)).head? = some MSG_CANCEL_ORDER := by
      simp [encode_command, encode_cancel_order]
    unfold decode_message
    rw [hhead]
    simp only [MSG_CANCEL_ORDER, MSG_NEW_ORDER]
    norm_num
    rw [show encode_command (.CancelOrder id) = encode_cancel_order id from rfl,
      decode_encode_cancel_order id hv]
    rfl

/-- Iterating a WAL whose bytes from `pos` on are exactly the records of
`cmds` yields those commands, numbered consecutively, with no error. -/
theorem iterGo_clean (cmds : List EngineCommand) :
    ∀ (data : List Nat) (endPos pos cur fuel : Nat),
    (∀ c ∈ cmds, validCmd c) →
    data.drop pos = walBytes cmds →
    endPos = pos + (walBytes cmds).length →
    cmds.length + 1 ≤ fuel →
    iterGo data endPos 0 fuel pos cur = (numberFrom cur (cmds.map zeroTs), none) := by
  induction cmds with
  | nil =>
    intro data endPos pos cur fuel _ _ he hf
    obtain ⟨f, rfl⟩ : ∃ f, fuel = f + 1 := ⟨fuel - 1, by omega⟩
    rw [walBytes_nil] at he
    simp only [List.length_nil, Nat.add_zero] at he
    subst he
    rw [iterGo]
    rw [if_pos (by unfold HEADER_SIZE; omega)]
    simp [numberFrom]
  | cons c cs ih =>
    intro data endPos pos cur fuel hv hd he hf
    obtain ⟨f, rfl⟩ : ∃ f, fuel = f + 1 := ⟨fuel - 1, by omega⟩
    rw [walBytes_cons] at hd he
    have hvc : validCmd c := hv c (List.mem_cons_self c cs)
    have hlen := record_read_len data (walBytes cs) pos c hd
    have hcrc := record_read_crc data (walBytes cs) pos c hd
    have hpay := record_read_payload data (walBytes cs) pos c hd
    have hL := encodeRecord_length c
    have hLc := encodeRecord_length_cases c
    have hnc := encode_command_length_cases c
    have heL : endPos = pos + (encodeRecord c).length + (walBytes cs).length := by
      rw [he, List.length_append]; omega
    have c1 : ¬ (pos + HEADER_SIZE > endPos) := by
      unfold HEADER_SIZE; rcases hLc with h | h <;> omega
    have c2 : (encode_command c).length ≠ 0 := by rcases hnc with h | h <;> omega
    have hL8 : (encodeRecord c).length = align_up (8 + (encode_command c).length) := hL
    have c3 : ¬ (endPos < pos + align_up (8 + (encode_command c).length)) := by
      rw [← hL8]; omega
    have c5 : ¬ (cur + 1 ≤ 0) := by omega
    have hrec := ih data endPos (pos + align_up (8 + (encode_command c).length))
      (cur + 1) f (fun x hx => hv x (List.mem_cons_of_mem c hx))
      (record_drop_full data (walBytes cs) pos c hd)
      (by rw [← hL8]; omega) (by simp at hf ⊢; omega)
    rw [iterGo, if_neg c1]
    simp only [HEADER_SIZE, hlen, hcrc, hpay, decode_message_encode_command c hvc,
      if_neg c2, if_neg c3, if_neg c5, hrec]
    simp [numberFrom, c2, c3, c5]

theorem fromLE_zeros (l : List Nat) (h : ∀ b ∈ l, b = 0) : fromLE l = 0 := by
  induction l with
  | nil => rfl
  | cons b bs ih =>
    simp only [fromLE, h b (List.mem_cons_self b bs),
      ih (fun x hx => h x (List.mem_cons_of_mem b hx))]

/-- Scanning a region that holds the records of `cmds` followed by an
all-zero tail restores exactly the end of the valid prefix. -/
theorem scanGo_clean (cmds : List EngineCommand) :
    ∀ (data tl : List Nat) (fileLen pos count fuel : Nat),
    (∀ c ∈ cmds, validCmd c) →
    data.drop pos = walBytes cmds ++ tl →
    (∀ b ∈ tl, b = 0) →
    fileLen = pos + (walBytes cmds).length + tl.length →
    cmds.length + 1 ≤ fuel →
    scanGo data fileLen fuel pos count =
      (pos + (walBytes cmds).length, count + cmds.length) := by
  induction cmds with
  | nil =>
    intro data tl fileLen pos count fuel _ hd hz hflen hf
    obtain ⟨f, rfl⟩ : ∃ f, fuel = f + 1 := ⟨fuel - 1, by omega⟩
    rw [walBytes_nil, List.nil_append] at hd
    rw [walBytes_nil] at hflen
    simp only [List.length_nil, Nat.add_zero] at hflen
    rw [scanGo]
    by_cases hcase : pos + HEADER_SIZE > fileLen
    · rw [if_pos hcase]; simp [walBytes_nil]
    · rw [if_neg hcase]
      have hread : read_u32 data pos = 0 := by
        unfold read_u32 readBytes
        rw [hd]
        exact fromLE_zeros _ (fun b hb => hz b ((List.take_sublist 4 tl).mem hb))
      simp [hread, walBytes_nil]
  | cons c cs ih =>
    intro data tl fileLen pos count fuel hv hd hz hflen hf
    obtain ⟨f, rfl⟩ : ∃ f, fuel = f + 1 := ⟨fuel - 1, by omega⟩
    rw [walBytes_cons, List.append_assoc] at hd
    have hvc : validCmd c := hv c (List.mem_cons_self c cs)
    have hlen := record_read_len data (walBytes cs ++ tl) pos c hd
    have hcrc := record_read_crc data (walBytes cs ++ tl) pos c hd
    have hpay := record_read_payload data (walBytes cs ++ tl) pos c hd
    have hL : (encodeRecord c).length = align_up (8 + (encode_command c).length) :=
      encodeRecord_length c
    have hLc := encodeRecord_length_cases c
    have hnc := encode_command_length_cases c
    have heL : fileLen =
        pos + (encodeRecord c).length + ((walBytes cs).length + tl.length) := by
      rw [hflen, walBytes_cons, List.length_append]; omega
    have c1 : ¬ (pos + HEADER_SIZE > fileLen) := by
      unfold HEADER_SIZE; rcases hLc with h | h <;> omega
    have c2 : (encode_command c).length ≠ 0 := by rcases hnc with h | h <;> omega
    have c3 : ¬ (fileLen < pos + align_up (8 + (encode_command c).length)) := by
      rw [← hL]; omega
    have hrec := ih data tl fileLen (pos + align_up (8 + (encode_command c).length))
      (count + 1) f (fun x hx => hv x (List.mem_cons_of_mem c hx))
      (record_drop_full data (walBytes cs ++ tl) pos c hd)
      hz (by rw [← hL]; omega) (by simp at hf ⊢; omega)
    rw [scanGo, if_neg c1]
    simp only [HEADER_SIZE, hlen, hcrc, hpay, if_neg c2, if_neg c3, hrec]
    simp only [walBytes_cons, List.length_append, List.length_cons]
    rw [← hL]
    simp only [ne_eq, not_true_eq_false, if_false, ite_false, Prod.mk.injEq]
    constructor <;> omega

/-! ## Claim C4 (WAL round-trip) -/

set_option maxRecDepth 100000 in
/-- C4 counterexample: a `NewOrder` appended with timestamp 7 does not come
back equal to itself — iteration yields it with timestamp 0, so
`append`-then-`iter_from(0)` is not the identity on command sequences. -/
theorem c4_counterexample :
    (Wal.appendAll Wal.empty
        [.NewOrder ⟨1, 1, .Bid, 100, 10, 7⟩]).iter_from 0 ≠
      ([(1, .NewOrder ⟨1, 1, .Bid, 100, 10, 7⟩)], none) := by
  decide

/-- C4 (amended): for any sequence of in-range commands, appending them to a
fresh WAL and iterating with `iter_from 0` yields exactly that sequence, in
order, with consecutive 1-based record numbers and no error — except that
each `NewOrder` comes back with its timestamp field replaced by 0 (the
protocol does not serialize timestamps).  In particular the sequences are
equal whenever the appended timestamps are 0. -/
theorem c4_wal_roundtrip (cmds : List EngineCommand)
    (hv : ∀ c ∈ cmds, validCmd c) :
    (Wal.appendAll Wal.empty cmds).iter_from 0 =
      (numberFrom 0 (cmds.map zeroTs), none) := by
  rw [appendAll_empty_spec]
  unfold Wal.iter_from
  exact iterGo_clean cmds (walBytes cmds) (walBytes cmds).length 0 0
    ((walBytes cmds).length + 1) hv (by simp) (by omega)
    (by have := walBytes_length_ge_count cmds; omega)

/-- C4 witness: a concrete three-command round-trip (timestamps 0). -/
theorem c4_wal_roundtrip_witness :
    (Wal.appendAll Wal.empty
        [.NewOrder ⟨1, 1, .Bid, 100, 10, 0⟩, .CancelOrder 1,
         .NewOrder ⟨2, 3, .Ask, -5, 7, 0⟩]).iter_from 0 =
      ([(1, .NewOrder ⟨1, 1, .Bid, 100, 10, 0⟩), (2, .CancelOrder 1),
        (3, .NewOrder ⟨2, 3, .Ask, -5, 7, 0⟩)], none) := by
  rw [c4_wal_roundtrip _ (by decide)]
  rfl

/-! ## Claim C5 (WAL open scan / corruption recovery) -/

set_option maxRecDepth 100000 in
/-- C5: (i) scanning a mapped region that holds a valid record prefix
followed by an unwritten (zero) tail restores `write_pos` and `record_count`
covering exactly that prefix; (ii) concretely, after three `NewOrder`
records (48 aligned bytes each) with one bit flipped in the stored CRC of
the second, the scan stops at the corruption: `record_count = 1` and
`write_pos = 48`. -/
theorem c5_scan_recovery :
    (∀ (cmds : List EngineCommand) (m : Nat), (∀ c ∈ cmds, validCmd c) →
      scan_to_end (walBytes cmds ++ List.replicate m 0)
          ((walBytes cmds).length + m) =
        ((walBytes cmds).length, cmds.length)) ∧
    (∀ d : List Nat,
      d = walBytes [.NewOrder ⟨1, 1, .Bid, 101, 10, 0⟩,
                    .NewOrder ⟨2, 2, .Bid, 102, 10, 0⟩,
                    .NewOrder ⟨3, 3, .Bid, 103, 10, 0⟩] →
      scan_to_end (d.set 52 (byteAt d 52 ^^^ 1) ++ List.replicate 112 0) 256 =
        (48, 1)) := by
  constructor
  · intro cmds m hv
    unfold scan_to_end
    have h := scanGo_clean cmds (walBytes cmds ++ List.replicate m 0)
      (List.replicate m 0) ((walBytes cmds).length + m) 0 0
      ((walBytes cmds).length + m + 1) hv (by simp)
      (by intro b hb; exact List.eq_of_mem_replicate hb)
      (by simp) (by have := walBytes_length_ge_count cmds; omega)
    simpa using h
  · intro d hd
    subst hd
    decide

set_option maxRecDepth 100000 in
/-- C5 witness: the general part applied to one concrete cancel record with
an 8-byte zero tail, and the concrete corruption scenario instantiated. -/
theorem c5_scan_recovery_witness :
    scan_to_end (walBytes [.CancelOrder 5] ++ List.replicate 8 0) 32 = (24, 1) ∧
    scan_to_end
        ((walBytes [.NewOrder ⟨1, 1, .Bid, 101, 10, 0⟩,
                    .NewOrder ⟨2, 2, .Bid, 102, 10, 0⟩,
                    .NewOrder ⟨3, 3, .Bid, 103, 10, 0⟩]).set 52
            (byteAt (walBytes [.NewOrder ⟨1, 1, .Bid, 101, 10, 0⟩,
                    .NewOrder ⟨2, 2, .Bid, 102, 10, 0⟩,
                    .NewOrder ⟨3, 3, .Bid, 103, 10, 0⟩]) 52 ^^^ 1) ++
          List.replicate 112 0) 256 = (48, 1) :=
  ⟨c5_scan_recovery.1 [.CancelOrder 5] 8 (by decide),
   c5_scan_recovery.2 _ rfl⟩

/-! ## Claim C8 (decode error behaviour) -/

/-- C8 counterexample: on a 40-byte frame whose side byte is 2 and whose
quantity field is 0, `decode_new_order` returns `InvalidSide 2`, not
`ZeroQuantity` — the side check runs before the quantity check. -/
theorem c8_counterexample :
    ((List.replicate 40 0).set 1 2).length = 40 ∧
    read_u64 ((List.replicate 40 0).set 1 2) 32 = 0 ∧
    decode_new_order ((List.replicate 40 0).set 1 2) =
      .error (.InvalidSide 2) ∧
    decode_new_order ((List.replicate 40 0).set 1 2) ≠ .error .ZeroQuantity := by
  decide

/-- C8 (amended): decoding fails exactly as specified — a 40-byte new-order
frame with a *valid side byte* and quantity field 0 gives `ZeroQuantity`
(with an invalid side byte the side error wins); a side byte outside
`{0, 1}` gives `InvalidSide`; a first byte other than `0x01`/`0x02` gives
`UnknownMessageType`; frames shorter than their declared fixed size give
`BufferTooShort`, both directly and through `decode_message`. -/
theorem c8_decode_errors :
    (∀ buf : List Nat, buf.length < 40 →
      decode_new_order buf = .error .BufferTooShort) ∧
    (∀ buf : List Nat, buf.length < 16 →
      decode_cancel_order buf = .error .BufferTooShort) ∧
    (∀ buf : List Nat, buf.length = 40 → byteAt buf 1 ≠ 0 → byteAt buf 1 ≠ 1 →
      decode_new_order buf = .error (.InvalidSide (byteAt buf 1))) ∧
    (∀ buf : List Nat, buf.length = 40 → (byteAt buf 1 = 0 ∨ byteAt buf 1 = 1) →
      read_u64 buf 32 = 0 → decode_new_order buf = .error .ZeroQuantity) ∧
    (∀ (buf : List Nat) (t : Nat), buf.head? = some t → t ≠ MSG_NEW_ORDER →
      t ≠ MSG_CANCEL_ORDER →
      decode_message buf = .error (.UnknownMessageType t)) ∧
    (∀ buf : List Nat, buf.head? = some MSG_NEW_ORDER → buf.length < 40 →
      decode_message buf = .error .BufferTooShort) ∧
    (∀ buf : List Nat, buf.head? = some MSG_CANCEL_ORDER → buf.length < 16 →
      decode_message buf = .error .BufferTooShort) := by
  refine ⟨?_, ?_, ?_, ?_, ?_, ?_, ?_⟩
  · intro buf h
    simp [decode_new_order, NEW_ORDER_SIZE, h]
  · intro buf h
    simp [decode_cancel_order, CANCEL_ORDER_SIZE, h]
  · intro buf h h0 h1
    have hlen : ¬ buf.length < NEW_ORDER_SIZE := by
      simp [NEW_ORDER_SIZE]; omega
    simp [decode_new_order, hlen, decode_side, h0, h1]
  · intro buf h hs hq
    have hlen : ¬ buf.length < NEW_ORDER_SIZE := by
      simp [NEW_ORDER_SIZE]; omega
    rcases hs with hs | hs <;> simp [decode_new_order, hlen, decode_side, hs, hq]
  · intro buf t ht h1 h2
    simp [decode_message, ht, h1, h2]
  · intro buf ht h
    simp [decode_message, ht, decode_new_order, NEW_ORDER_SIZE, h]
  · intro buf ht h
    simp [decode_message, ht, decode_cancel_order, CANCEL_ORDER_SIZE, h,
      MSG_NEW_ORDER, MSG_CANCEL_ORDER]

/-- C8 witness: each clause of the amended claim at a concrete frame. -/
theorem c8_decode_errors_witness :
    decode_new_order (List.replicate 39 0) = .error .BufferTooShort ∧
    decode_cancel_order [] = .error .BufferTooShort ∧
    decode_new_order ((List.replicate 40 0).set 1 5) =
      .error (.InvalidSide 5) ∧
    decode_new_order (List.replicate 40 0) = .error .ZeroQuantity ∧
    decode_message (9 :: List.replicate 39 0) =
      .error (.UnknownMessageType 9) ∧
    decode_message [1] = .error .BufferTooShort ∧
    decode_message [2] = .error .BufferTooShort :=
  ⟨c8_decode_errors.1 _ (by decide),
   c8_decode_errors.2.1 _ (by decide),
   c8_decode_errors.2.2.1 _ (by decide) (by decide) (by decide),
   c8_decode_errors.2.2.2.1 _ (by decide) (by decide) (by decide),
   c8_decode_errors.2.2.2.2.1 _ 9 (by decide) (by decide) (by decide),
   c8_decode_errors.2.2.2.2.2.1 _ (by decide) (by decide),
   c8_decode_errors.2.2.2.2.2.2 _ (by decide) (by decide)⟩

/-! ## Claim C10 (timestamp not persisted, other fields preserved) -/

/-- C10: encoding then decoding a new order (or appending it to the WAL and
iterating) returns the order with timestamp 0 regardless of the input
timestamp, and with `id`, `trader_id`, `side`, `price`, `quantity`
preserved exactly. -/
theorem c10_timestamp_zeroed :
    (∀ o : Order, o.valid → 0 < o.quantity →
      decode_new_order (encode_new_order o) = .ok { o with timestamp := 0 }) ∧
    (∀ o : Order, o.valid → 0 < o.quantity →
      (Wal.appendAll Wal.empty [.NewOrder o]).iter_from 0 =
        ([(1, .NewOrder { o with timestamp := 0 })], none)) := by
  constructor
  · exact decode_encode_new_order
  · intro o hv hq
    rw [appendAll_empty_spec]
    unfold Wal.iter_from
    have h := iterGo_clean [.NewOrder o] (walBytes [.NewOrder o])
      (walBytes [.NewOrder o]).length 0 0 ((walBytes [.NewOrder o]).length + 1)
      (by intro c hc; simp at hc; subst hc; exact ⟨hv, hq⟩)
      (by simp) (by omega)
      (by have := walBytes_length_ge_count [.NewOrder o]; omega)
    rw [h]
    rfl

/-- C10 witness: a concrete order with timestamp 123 comes back with
timestamp 0 and all other fields intact. -/
theorem c10_timestamp_zeroed_witness :
    decode_new_order (encode_new_order ⟨3, 4, .Ask, -7, 9, 123⟩) =
      .ok ⟨3, 4, .Ask, -7, 9, 0⟩ ∧
    (Wal.appendAll Wal.empty [.NewOrder ⟨3, 4, .Ask, -7, 9, 123⟩]).iter_from 0 =
      ([(1, .NewOrder ⟨3, 4, .Ask, -7, 9, 0⟩)], none) :=
  ⟨c10_timestamp_zeroed.1 _ (by decide) (by decide),
   c10_timestamp_zeroed.2 _ (by decide) (by decide)⟩

/-! ## Association-list and key-extremum lemmas -/

section AList

variable {κ β : Type} [DecidableEq κ]

theorem lookupA_putA_self (l : List (κ × β)) (k : κ) (v : β) :
    lookupA (putA l k v) k = some v := by
  induction l with
  | nil => simp [putA, lookupA]
  | cons kv rest ih =>
    obtain ⟨k', w⟩ := kv
    by_cases h : k' = k
    · simp [putA, h, lookupA]
    · simp [putA, h, lookupA, ih]

theorem keysA_nil : keysA ([] : List (κ × β)) = [] := rfl

theorem keysA_cons (k0 : κ) (w : β) (rest : List (κ × β)) :
    keysA ((k0, w) :: rest) = k0 :: keysA rest := rfl

theorem lookupA_putA_ne (l : List (κ × β)) (k k' : κ) (v : β) (h : k' ≠ k) :
    lookupA (putA l k v) k' = lookupA l k' := by
  have hks : k ≠ k' := Ne.symm h
  induction l with
  | nil => simp [putA, lookupA, hks]
  | cons kv rest ih =>
    obtain ⟨k0, w⟩ := kv
    by_cases h0 : k0 = k
    · simp [putA, h0, lookupA, hks]
    · simp [putA, h0, lookupA, ih]

theorem lookupA_removeA_ne (l : List (κ × β)) (k k' : κ) (h : k' ≠ k) :
    lookupA (removeA l k) k' = lookupA l k' := by
  have hks : k ≠ k' := Ne.symm h
  induction l with
  | nil => simp [removeA]
  | cons kv rest ih =>
    obtain ⟨k0, w⟩ := kv
    by_cases h0 : k0 = k
    · simp [removeA, h0, lookupA, hks]
    · simp [removeA, h0, lookupA, ih]

theorem keysA_mem_of_lookupA (l : List (κ × β)) (k : κ) (v : β)
    (h : lookupA l k = some v) : k ∈ keysA l := by
  induction l with
  | nil => simp [lookupA] at h
  | cons kv rest ih =>
    obtain ⟨k0, w⟩ := kv
    rw [keysA_cons]
    by_cases h0 : k0 = k
    · simp [h0]
    · simp [lookupA, h0] at h
      exact List.mem_cons_of_mem k0 (ih h)

theorem lookupA_isSome_of_mem (l : List (κ × β)) (k : κ) (h : k ∈ keysA l) :
    ∃ v, lookupA l k = some v := by
  induction l with
  | nil => simp [keysA_nil] at h
  | cons kv rest ih =>
    obtain ⟨k0, w⟩ := kv
    by_cases h0 : k0 = k
    · exact ⟨w, by simp [lookupA, h0]⟩
    · rw [keysA_cons] at h
      rcases List.mem_cons.mp h with h | h
      · exact absurd h.symm h0
      · obtain ⟨v, hv⟩ := ih h
        exact ⟨v, by simp [lookupA, h0, hv]⟩

theorem lookupA_none_of_not_mem (l : List (κ × β)) (k : κ) (h : k ∉ keysA l) :
    lookupA l k = none := by
  induction l with
  | nil => rfl
  | cons kv rest ih =>
    obtain ⟨k0, w⟩ := kv
    rw [keysA_cons] at h
    have h1 : k0 ≠ k := fun hh => h (hh ▸ List.mem_cons_self k0 (keysA rest))
    have h2 : k ∉ keysA rest := fun hh => h (List.mem_cons_of_mem k0 hh)
    simp [lookupA, h1, ih h2]

theorem lookupA_removeA_self (l : List (κ × β)) (k : κ)
    (hnd : (keysA l).Nodup) : lookupA (removeA l k) k = none := by
  induction l with
  | nil => rfl
  | cons kv rest ih =>
    obtain ⟨k0, w⟩ := kv
    rw [keysA_cons, List.nodup_cons] at hnd
    by_cases h0 : k0 = k
    · rw [removeA, if_pos h0]
      exact lookupA_none_of_not_mem rest k (h0 ▸ hnd.1)
    · simp [removeA, h0, lookupA, h0, ih hnd.2]

theorem keysA_putA_mem (l : List (κ × β)) (k : κ) (v : β) (h : k ∈ keysA l) :
    keysA (putA l k v) = keysA l := by
  induction l with
  | nil => simp [keysA_nil] at h
  | cons kv rest ih =>
    obtain ⟨k0, w⟩ := kv
    by_cases h0 : k0 = k
    · simp [putA, h0, keysA_cons]
    · rw [keysA_cons] at h
      rcases List.mem_cons.mp h with h | h
      · exact absurd h.symm h0
      · simp [putA, h0, keysA_cons, ih h]

theorem keysA_putA_not_mem (l : List (κ × β)) (k : κ) (v : β)
    (h : k ∉ keysA l) : keysA (putA l k v) = keysA l ++ [k] := by
  induction l with
  | nil => simp [putA, keysA_cons, keysA_nil]
  | cons kv rest ih =>
    obtain ⟨k0, w⟩ := kv
    rw [keysA_cons] at h
    have h1 : k0 ≠ k := fun hh => h (hh ▸ List.mem_cons_self k0 (keysA rest))
    have h2 : k ∉ keysA rest := fun hh => h (List.mem_cons_of_mem k0 hh)
    simp [putA, h1, keysA_cons, ih h2]

theorem keysA_removeA_subset (l : List (κ × β)) (k : κ) :
    ∀ x ∈ keysA (removeA l k), x ∈ keysA l := by
  induction l with
  | nil => simp [removeA]
  | cons kv rest ih =>
    obtain ⟨k0, w⟩ := kv
    intro x hx
    rw [keysA_cons]
    by_cases h0 : k0 = k
    · rw [removeA, if_pos h0] at hx
      exact List.mem_cons_of_mem k0 hx
    · rw [removeA, if_neg h0, keysA_cons] at hx
      rcases List.mem_cons.mp hx with hx | hx
      · exact hx ▸ List.mem_cons_self k0 (keysA rest)
      · exact List.mem_cons_of_mem k0 (ih x hx)

theorem keysA_putA_nodup (l : List (κ × β)) (k : κ) (v : β)
    (h : (keysA l).Nodup) : (keysA (putA l k v)).Nodup := by
  by_cases hm : k ∈ keysA l
  · rw [keysA_putA_mem l k v hm]; exact h
  · rw [keysA_putA_not_mem l k v hm]
    simpa [List.nodup_append] using ⟨h, fun hk => hm hk⟩

theorem keysA_removeA_nodup (l : List (κ × β)) (k : κ)
    (h : (keysA l).Nodup) : (keysA (removeA l k)).Nodup := by
  induction l with
  | nil => simp [removeA, keysA_nil]
  | cons kv rest ih =>
    obtain ⟨k0, w⟩ := kv
    rw [keysA_cons, List.nodup_cons] at h
    by_cases h0 : k0 = k
    · rw [removeA, if_pos h0]
      exact h.2
    · rw [removeA, if_neg h0, keysA_cons, List.nodup_cons]
      exact ⟨fun hk => h.1 (keysA_removeA_subset rest k k0 hk), ih h.2⟩

theorem removeA_sublist (l : List (κ × β)) (k : κ) :
    List.Sublist (removeA l k) l := by
  induction l with
  | nil => simp [removeA]
  | cons kv rest ih =>
    obtain ⟨k0, w⟩ := kv
    by_cases h0 : k0 = k
    · rw [removeA, if_pos h0]
      exact List.sublist_cons_self (k0, w) rest
    · rw [removeA, if_neg h0]
      exact List.Sublist.cons₂ (k0, w) ih

end AList

theorem listMax_none_iff (l : List Int) : listMax l = none ↔ l = [] := by
  cases l <;> simp [listMax]

theorem listMin_none_iff (l : List Int) : listMin l = none ↔ l = [] := by
  cases l <;> simp [listMin]

theorem listMax_mem (l : List Int) (m : Int) (h : listMax l = some m) : m ∈ l := by
  induction l generalizing m with
  | nil => simp [listMax] at h
  | cons x xs ih =>
    simp only [listMax] at h
    cases hxs : listMax xs with
    | none => rw [hxs] at h; simp at h; simp [h]
    | some m' =>
      rw [hxs] at h
      simp at h
      rcases max_choice x m' with hc | hc <;> rw [hc] at h
      · simp [← h]
      · exact List.mem_cons_of_mem x (by rw [← h]; exact ih m' hxs)

theorem listMin_mem (l : List Int) (m : Int) (h : listMin l = some m) : m ∈ l := by
  induction l generalizing m with
  | nil => simp [listMin] at h
  | cons x xs ih =>
    simp only [listMin] at h
    cases hxs : listMin xs with
    | none => rw [hxs] at h; simp at h; simp [h]
    | some m' =>
      rw [hxs] at h
      simp at h
      rcases min_choice x m' with hc | hc <;> rw [hc] at h
      · simp [← h]
      · exact List.mem_cons_of_mem x (by rw [← h]; exact ih m' hxs)

theorem le_listMax (l : List Int) (x : Int) (hx : x ∈ l) :
    ∃ m, listMax l = some m ∧ x ≤ m := by
  induction l with
  | nil => simp at hx
  | cons y ys ih =>
    simp only [listMax]
    cases hys : listMax ys with
    | none =>
      have : ys = [] := (listMax_none_iff ys).mp hys
      subst this
      simp at hx
      exact ⟨y, rfl, le_of_eq hx⟩
    | some m' =>
      rcases List.mem_cons.mp hx with h | h
      · exact ⟨max y m', rfl, by rw [h]; exact le_max_left y m'⟩
      · obtain ⟨m, hm, hle⟩ := ih h
        rw [hys] at hm
        cases hm
        exact ⟨max y m', rfl, le_trans hle (le_max_right y m')⟩

theorem listMin_le (l : List Int) (x : Int) (hx : x ∈ l) :
    ∃ m, listMin l = some m ∧ m ≤ x := by
  induction l with
  | nil => simp at hx
  | cons y ys ih =>
    simp only [listMin]
    cases hys : listMin ys with
    | none =>
      have : ys = [] := (listMin_none_iff ys).mp hys
      subst this
      simp at hx
      exact ⟨y, rfl, le_of_eq hx.symm⟩
    | some m' =>
      rcases List.mem_cons.mp hx with h | h
      · exact ⟨min y m', rfl, by rw [h]; exact min_le_left y m'⟩
      · obtain ⟨m, hm, hle⟩ := ih h
        rw [hys] at hm
        cases hm
        exact ⟨min y m', rfl, le_trans (min_le_right y m') hle⟩

theorem listMax_append_singleton (l : List Int) (x : Int) :
    listMax (l ++ [x]) =
      some ((listMax l).elim x (fun m => max m x)) := by
  induction l with
  | nil => simp [listMax]
  | cons y ys ih =>
    simp only [List.cons_append, listMax]
    simp only [List.append_eq]
    rw [ih]
    cases hys : listMax ys with
    | none =>
      have : ys = [] := (listMax_none_iff ys).mp hys
      subst this
      simp [listMax]
    | some m' => simp [hys, max_assoc]

theorem listMin_append_singleton (l : List Int) (x : Int) :
    listMin (l ++ [x]) =
      some ((listMin l).elim x (fun m => min m x)) := by
  induction l with
  | nil => simp [listMin]
  | cons y ys ih =>
    simp only [List.cons_append, listMin]
    simp only [List.append_eq]
    rw [ih]
    cases hys : listMin ys with
    | none =>
      have : ys = [] := (listMin_none_iff ys).mp hys
      subst this
      simp [listMin]
    | some m' => simp [hys, min_assoc]

/-! ## Order-book operations preserve well-formedness -/

theorem insert_order_WF (b : OrderBook) (o : Order) (b' : OrderBook)
    (hwf : WF b) (hq : 0 < o.quantity) (hc : insertSafe b o)
    (h : insert_order b o = .ok b') : WF b' := by
  obtain ⟨ndb, nda, lvb, lva, hbb, hba, hx⟩ := hwf
  unfold insert_order at h
  split at h
  · cases h
  split at h
  · cases h
  injection h with h
  subst h
  cases hside : o.side with
  | Bid =>
    unfold insertSafe at hc
    rw [hside] at hc
    simp only [hside, update_best_after_insert, levelsOf]
    refine ⟨keysA_putA_nodup _ _ _ ndb, nda, ?_, lva, ?_, hba, ?_⟩
    · intro p q hlook
      by_cases hp : p = o.price
      · subst hp
        rw [lookupA_putA_self] at hlook
        injection hlook with hlook
        subst hlook
        refine ⟨by simp, ?_⟩
        intro x hx1
        rcases List.mem_append.mp hx1 with hx1 | hx1
        · cases hq0 : lookupA b.bids o.price with
          | none => rw [hq0] at hx1; simp at hx1
          | some q1 =>
            rw [hq0] at hx1
            simp at hx1
            exact (lvb o.price q1 hq0).2 x hx1
        · simp at hx1
          subst hx1
          exact ⟨rfl, hq⟩
      · rw [lookupA_putA_ne _ _ _ _ hp] at hlook
        exact lvb p q hlook
    · cases hq0 : lookupA b.bids o.price with
      | some q1 =>
        have hmem : o.price ∈ keysA b.bids := keysA_mem_of_lookupA _ _ _ hq0
        rw [keysA_putA_mem _ _ _ hmem]
        obtain ⟨m, hm, hle⟩ := le_listMax _ _ hmem
        rw [hbb, hm]
        simp [Option.elim, max_eq_left hle]
      | none =>
        have hnm : o.price ∉ keysA b.bids := by
          intro hmem
          obtain ⟨v, hv⟩ := lookupA_isSome_of_mem _ _ hmem
          rw [hq0] at hv
          cases hv
        rw [keysA_putA_not_mem _ _ _ hnm, listMax_append_singleton, hbb]
    · intro pb hpb pa hpa
      by_cases hq0 : o.price ∈ keysA b.bids
      · rw [keysA_putA_mem _ _ _ hq0] at hpb
        exact hx pb hpb pa hpa
      · rw [keysA_putA_not_mem _ _ _ hq0] at hpb
        rcases List.mem_append.mp hpb with hpb | hpb
        · exact hx pb hpb pa hpa
        · simp at hpb
          subst hpb
          exact hc pa hpa
  | Ask =>
    unfold insertSafe at hc
    rw [hside] at hc
    simp only [hside, update_best_after_insert, levelsOf]
    refine ⟨ndb, keysA_putA_nodup _ _ _ nda, lvb, ?_, hbb, ?_, ?_⟩
    · intro p q hlook
      by_cases hp : p = o.price
      · subst hp
        rw [lookupA_putA_self] at hlook
        injection hlook with hlook
        subst hlook
        refine ⟨by simp, ?_⟩
        intro x hx1
        rcases List.mem_append.mp hx1 with hx1 | hx1
        · cases hq0 : lookupA b.asks o.price with
          | none => rw [hq0] at hx1; simp at hx1
          | some q1 =>
            rw [hq0] at hx1
            simp at hx1
            exact (lva o.price q1 hq0).2 x hx1
        · simp at hx1
          subst hx1
          exact ⟨rfl, hq⟩
      · rw [lookupA_putA_ne _ _ _ _ hp] at hlook
        exact lva p q hlook
    · cases hq0 : lookupA b.asks o.price with
      | some q1 =>
        have hmem : o.price ∈ keysA b.asks := keysA_mem_of_lookupA _ _ _ hq0
        rw [keysA_putA_mem _ _ _ hmem]
        obtain ⟨m, hm, hle⟩ := listMin_le _ _ hmem
        rw [hba, hm]
        simp [Option.elim, min_eq_left hle]
      | none =>
        have hnm : o.price ∉ keysA b.asks := by
          intro hmem
          obtain ⟨v, hv⟩ := lookupA_isSome_of_mem _ _ hmem
          rw [hq0] at hv
          cases hv
        rw [keysA_putA_not_mem _ _ _ hnm, listMin_append_singleton, hba]
    · intro pb hpb pa hpa
      by_cases hq0 : o.price ∈ keysA b.asks
      · rw [keysA_putA_mem _ _ _ hq0] at hpa
        exact hx pb hpb pa hpa
      · rw [keysA_putA_not_mem _ _ _ hq0] at hpa
        rcases List.mem_append.mp hpa with hpa | hpa
        · exact hx pb hpb pa hpa
        · simp at hpa
          subst hpa
          exact hc pb hpb

theorem reduce_front_WF (b : OrderBook) (side : Side) (price : Int)
    (fq rem : Nat) (b' : OrderBook) (hwf : WF b)
    (h : reduce_front_quantity b side price fq = .ok (rem, b')) :
    WF b' ∧ List.Sublist b'.order_index b.order_index := by
  obtain ⟨ndb, nda, lvb, lva, hbb, hba, hx⟩ := hwf
  unfold reduce_front_quantity at h
  rcases hlk : lookupA (levelsOf b side) price with _ | q <;> simp only [hlk] at h
  · exact absurd h (by simp)
  cases q with
  | nil => simp at h
  | cons front rest =>
    simp only [] at h
    by_cases hexc : front.quantity < fq
    · rw [if_pos hexc] at h; simp at h
    rw [if_neg hexc] at h
    by_cases hzero : front.quantity - fq = 0
    · rw [if_pos hzero] at h
      by_cases hre : rest.isEmpty
      · rw [if_pos hre] at h
        have hrest : rest = [] := by
          cases rest
          · rfl
          · simp [List.isEmpty] at hre
        cases side with
        | Bid =>
          simp only at h
          injection h with h
          injection h with h1 h2
          subst h2
          simp only [levelsOf] at hlk
          refine ⟨⟨keysA_removeA_nodup _ _ ndb, nda, ?_, lva, rfl, hba, ?_⟩,
            removeA_sublist _ _⟩
          · intro p q hlook
            by_cases hp : p = price
            · subst hp
              rw [lookupA_removeA_self _ _ ndb] at hlook
              cases hlook
            · rw [lookupA_removeA_ne _ _ _ hp] at hlook
              exact lvb p q hlook
          · intro pb hpb pa hpa
            exact hx pb (keysA_removeA_subset _ _ pb hpb) pa hpa
        | Ask =>
          simp only at h
          injection h with h
          injection h with h1 h2
          subst h2
          simp only [levelsOf] at hlk
          refine ⟨⟨ndb, keysA_removeA_nodup _ _ nda, lvb, ?_, hbb, rfl, ?_⟩,
            removeA_sublist _ _⟩
          · intro p q hlook
            by_cases hp : p = price
            · subst hp
              rw [lookupA_removeA_self _ _ nda] at hlook
              cases hlook
            · rw [lookupA_removeA_ne _ _ _ hp] at hlook
              exact lva p q hlook
          · intro pb hpb pa hpa
            exact hx pb hpb pa (keysA_removeA_subset _ _ pa hpa)
      · rw [if_neg hre] at h
        have hrest : rest ≠ [] := by
          cases rest
          · simp [List.isEmpty] at hre
          · simp
        have hkm : price ∈ keysA (levelsOf b side) := keysA_mem_of_lookupA _ _ _ hlk
        cases side with
        | Bid =>
          simp only at h
          injection h with h
          injection h with h1 h2
          subst h2
          simp only [levelsOf] at hlk hkm
          refine ⟨⟨by rw [keysA_putA_mem _ _ _ hkm]; exact ndb, nda, ?_, lva,
            by rw [keysA_putA_mem _ _ _ hkm]; exact hbb, hba, ?_⟩,
            removeA_sublist _ _⟩
          · intro p q hlook
            by_cases hp : p = price
            · subst hp
              rw [lookupA_putA_self] at hlook
              injection hlook with hlook
              subst hlook
              exact ⟨hrest, fun x hxm =>
                (lvb p (front :: rest) hlk).2 x (List.mem_cons_of_mem front hxm)⟩
            · rw [lookupA_putA_ne _ _ _ _ hp] at hlook
              exact lvb p q hlook
          · intro pb hpb pa hpa
            rw [keysA_putA_mem _ _ _ hkm] at hpb
            exact hx pb hpb pa hpa
        | Ask =>
          simp only at h
          injection h with h
          injection h with h1 h2
          subst h2
          simp only [levelsOf] at hlk hkm
          refine ⟨⟨ndb, by rw [keysA_putA_mem _ _ _ hkm]; exact nda, lvb, ?_, hbb,
            by rw [keysA_putA_mem _ _ _ hkm]; exact hba, ?_⟩,
            removeA_sublist _ _⟩
          · intro p q hlook
            by_cases hp : p = price
            · subst hp
              rw [lookupA_putA_self] at hlook
              injection hlook with hlook
              subst hlook
              exact ⟨hrest, fun x hxm =>
                (lva p (front :: rest) hlk).2 x (List.mem_cons_of_mem front hxm)⟩
            · rw [lookupA_putA_ne _ _ _ _ hp] at hlook
              exact lva p q hlook
          · intro pb hpb pa hpa
            rw [keysA_putA_mem _ _ _ hkm] at hpa
            exact hx pb hpb pa hpa
    · rw [if_neg hzero] at h
      have hkm : price ∈ keysA (levelsOf b side) := keysA_mem_of_lookupA _ _ _ hlk
      cases side with
      | Bid =>
        simp only at h
        injection h with h
        injection h with h1 h2
        subst h2
        simp only [levelsOf] at hlk hkm
        refine ⟨⟨by rw [keysA_putA_mem _ _ _ hkm]; exact ndb, nda, ?_, lva,
          by rw [keysA_putA_mem _ _ _ hkm]; exact hbb, hba, ?_⟩,
          List.Sublist.refl _⟩
        · intro p q hlook
          by_cases hp : p = price
          · subst hp
            rw [lookupA_putA_self] at hlook
            injection hlook with hlook
            subst hlook
            refine ⟨by simp, ?_⟩
            intro x hxm
            rcases List.mem_cons.mp hxm with hxm | hxm
            · subst hxm
              exact ⟨(lvb p (front :: rest) hlk).2 front
                  (List.mem_cons_self front rest) |>.1,
                show 0 < front.quantity - fq by omega⟩
            · exact (lvb p (front :: rest) hlk).2 x (List.mem_cons_of_mem front hxm)
          · rw [lookupA_putA_ne _ _ _ _ hp] at hlook
            exact lvb p q hlook
        · intro pb hpb pa hpa
          rw [keysA_putA_mem _ _ _ hkm] at hpb
          exact hx pb hpb pa hpa
      | Ask =>
        simp only at h
        injection h with h
        injection h with h1 h2
        subst h2
        simp only [levelsOf] at hlk hkm
        refine ⟨⟨ndb, by rw [keysA_putA_mem _ _ _ hkm]; exact nda, lvb, ?_, hbb,
          by rw [keysA_putA_mem _ _ _ hkm]; exact hba, ?_⟩,
          List.Sublist.refl _⟩
        · intro p q hlook
          by_cases hp : p = price
          · subst hp
            rw [lookupA_putA_self] at hlook
            injection hlook with hlook
            subst hlook
            refine ⟨by simp, ?_⟩
            intro x hxm
            rcases List.mem_cons.mp hxm with hxm | hxm
            · subst hxm
              exact ⟨(lva p (front :: rest) hlk).2 front
                  (List.mem_cons_self front rest) |>.1,
                show 0 < front.quantity - fq by omega⟩
            · exact (lva p (front :: rest) hlk).2 x (List.mem_cons_of_mem front hxm)
          · rw [lookupA_putA_ne _ _ _ _ hp] at hlook
            exact lva p q hlook
        · intro pb hpb pa hpa
          rw [keysA_putA_mem _ _ _ hkm] at hpa
          exact hx pb hpb pa hpa

theorem cancel_order_WF (b : OrderBook) (oid : Nat) (hwf : WF b) :
    WF (cancel_order b oid).2 := by
  obtain ⟨ndb, nda, lvb, lva, hbb, hba, hx⟩ := hwf
  unfold cancel_order
  rcases hidx : lookupA b.order_index oid with _ | sp <;> simp only [hidx]
  · exact ⟨ndb, nda, lvb, lva, hbb, hba, hx⟩
  obtain ⟨side, price⟩ := sp
  cases side with
  | Bid =>
    simp only [levelsOf]
    rcases hlk : lookupA b.bids price with _ | q <;> simp only [hlk]
    · exact ⟨ndb, nda, lvb, lva, hbb, hba, hx⟩
    rcases hfd : q.find? (fun o => o.id == oid) with _ | order <;> simp only [hfd]
    · exact ⟨ndb, nda, lvb, lva, hbb, hba, hx⟩
    by_cases hre : (q.eraseP (fun o => o.id == oid)).isEmpty
    · rw [if_pos hre]
      refine ⟨keysA_removeA_nodup _ _ ndb, nda, ?_, lva, rfl, hba, ?_⟩
      · intro p q1 hlook
        by_cases hp : p = price
        · subst hp
          rw [lookupA_removeA_self _ _ ndb] at hlook
          cases hlook
        · rw [lookupA_removeA_ne _ _ _ hp] at hlook
          exact lvb p q1 hlook
      · intro pb hpb pa hpa
        exact hx pb (keysA_removeA_subset _ _ pb hpb) pa hpa
    · rw [if_neg hre]
      have hkm : price ∈ keysA b.bids := keysA_mem_of_lookupA _ _ _ hlk
      have hrest : q.eraseP (fun o => o.id == oid) ≠ [] := by
        intro hh
        rw [hh] at hre
        simp [List.isEmpty] at hre
      refine ⟨by rw [keysA_putA_mem _ _ _ hkm]; exact ndb, nda, ?_, lva,
        by rw [keysA_putA_mem _ _ _ hkm]; exact hbb, hba, ?_⟩
      · intro p q1 hlook
        by_cases hp : p = price
        · subst hp
          rw [lookupA_putA_self] at hlook
          injection hlook with hlook
          subst hlook
          exact ⟨hrest, fun x hxm =>
            (lvb p q hlk).2 x ((List.eraseP_sublist q).subset hxm)⟩
        · rw [lookupA_putA_ne _ _ _ _ hp] at hlook
          exact lvb p q1 hlook
      · intro pb hpb pa hpa
        rw [keysA_putA_mem _ _ _ hkm] at hpb
        exact hx pb hpb pa hpa
  | Ask =>
    simp only [levelsOf]
    rcases hlk : lookupA b.asks price with _ | q <;> simp only [hlk]
    · exact ⟨ndb, nda, lvb, lva, hbb, hba, hx⟩
    rcases hfd : q.find? (fun o => o.id == oid) with _ | order <;> simp only [hfd]
    · exact ⟨ndb, nda, lvb, lva, hbb, hba, hx⟩
    by_cases hre : (q.eraseP (fun o => o.id == oid)).isEmpty
    · rw [if_pos hre]
      refine ⟨ndb, keysA_removeA_nodup _ _ nda, lvb, ?_, hbb, rfl, ?_⟩
      · intro p q1 hlook
        by_cases hp : p = price
        · subst hp
          rw [lookupA_removeA_self _ _ nda] at hlook
          cases hlook
        · rw [lookupA_removeA_ne _ _ _ hp] at hlook
          exact lva p q1 hlook
      · intro pb hpb pa hpa
        exact hx pb hpb pa (keysA_removeA_subset _ _ pa hpa)
    · rw [if_neg hre]
      have hkm : price ∈ keysA b.asks := keysA_mem_of_lookupA _ _ _ hlk
      have hrest : q.eraseP (fun o => o.id == oid) ≠ [] := by
        intro hh
        rw [hh] at hre
        simp [List.isEmpty] at hre
      refine ⟨ndb, by rw [keysA_putA_mem _ _ _ hkm]; exact nda, lvb, ?_, hbb,
        by rw [keysA_putA_mem _ _ _ hkm]; exact hba, ?_⟩
      · intro p q1 hlook
        by_cases hp : p = price
        · subst hp
          rw [lookupA_putA_self] at hlook
          injection hlook with hlook
          subst hlook
          exact ⟨hrest, fun x hxm =>
            (lva p q hlk).2 x ((List.eraseP_sublist q).subset hxm)⟩
        · rw [lookupA_putA_ne _ _ _ _ hp] at hlook
          exact lva p q1 hlook
      · intro pb hpb pa hpa
        rw [keysA_putA_mem _ _ _ hkm] at hpa
        exact hx pb hpb pa hpa

/-! ## The matching loop: invariant preservation, conservation, exits -/

theorem matchLoop_spec (side : Side) (tid oid : Nat) (limit : Int) :
    ∀ (fuel rem : Nat) (b : OrderBook) (out : LoopOut),
    WF b → rem ≤ fuel → matchLoop side tid oid limit fuel rem b = out →
    WF out.book ∧ out.err = none ∧
    sumFills out.fills + out.rem = rem ∧
    List.Sublist out.book.order_index b.order_index ∧
    (out.selfTrade = true → 0 < out.rem) ∧
    (0 < out.rem → out.selfTrade = false →
      ∀ o : Order, o.side = side → o.price = limit → insertSafe out.book o) := by
  intro fuel
  induction fuel with
  | zero =>
    intro rem b out hwf hle hm
    have hr0 : rem = 0 := by omega
    subst hr0
    rw [matchLoop] at hm
    subst hm
    refine ⟨hwf, rfl, by simp [sumFills], List.Sublist.refl _, by simp, ?_⟩
    intro h1 _ o _ _
    simp at h1
  | succ f ih =>
    intro rem b out hwf hle hm
    rw [matchLoop] at hm
    by_cases hrem : rem = 0
    · rw [if_pos hrem] at hm
      subst hm
      refine ⟨hwf, rfl, by simp [sumFills], List.Sublist.refl _, by simp, ?_⟩
      intro h1 _ o _ _
      simp [hrem] at h1
    rw [if_neg hrem] at hm
    rcases hbo : bestOpp b side with _ | p <;> simp only [hbo] at hm
    · subst hm
      refine ⟨hwf, rfl, by simp [sumFills], List.Sublist.refl _, by simp, ?_⟩
      intro _ _ o hos hop
      obtain ⟨_, _, _, _, hbb, hba, _⟩ := hwf
      unfold insertSafe
      rw [hos]
      cases side with
      | Bid =>
        intro pa hpa
        simp only [bestOpp] at hbo
        rw [hba] at hbo
        rw [(listMin_none_iff _).mp hbo] at hpa
        cases hpa
      | Ask =>
        intro pb hpb
        simp only [bestOpp] at hbo
        rw [hbb] at hbo
        rw [(listMax_none_iff _).mp hbo] at hpb
        cases hpb
    by_cases hcr : crossesPrice side p limit = true
    · rw [if_pos hcr] at hm
      rcases hpk : peek_front b (oppSide side) p with _ | maker <;>
        simp only [hpk] at hm
      · exfalso
        obtain ⟨_, _, lvb, lva, hbb, hba, _⟩ := hwf
        unfold peek_front at hpk
        cases side with
        | Bid =>
          simp only [bestOpp] at hbo
          rw [hba] at hbo
          have hpm : p ∈ keysA b.asks := listMin_mem _ _ hbo
          obtain ⟨q, hq⟩ := lookupA_isSome_of_mem _ _ hpm
          rw [show oppSide Side.Bid = Side.Ask from rfl] at hpk
          simp only [levelsOf] at hpk
          rw [hq] at hpk
          obtain ⟨hne, _⟩ := lva p q hq
          cases q with
          | nil => exact hne rfl
          | cons a as => simp at hpk
        | Ask =>
          simp only [bestOpp] at hbo
          rw [hbb] at hbo
          have hpm : p ∈ keysA b.bids := listMax_mem _ _ hbo
          obtain ⟨q, hq⟩ := lookupA_isSome_of_mem _ _ hpm
          rw [show oppSide Side.Ask = Side.Bid from rfl] at hpk
          simp only [levelsOf] at hpk
          rw [hq] at hpk
          obtain ⟨hne, _⟩ := lvb p q hq
          cases q with
          | nil => exact hne rfl
          | cons a as => simp at hpk
      · by_cases hst : maker.trader_id = tid
        · rw [if_pos hst] at hm
          subst hm
          refine ⟨hwf, rfl, by simp [sumFills], List.Sublist.refl _, ?_, ?_⟩
          · intro _
            simp only []
            omega
          · intro _ hfalse
            simp at hfalse
        · rw [if_neg hst] at hm
          -- extract the level behind the peek
          unfold peek_front at hpk
          rcases hlkq : lookupA (levelsOf b (oppSide side)) p with _ | q <;>
            rw [hlkq] at hpk
          · cases hpk
          cases q with
          | nil => cases hpk
          | cons m0 qrest =>
            simp only [List.head?] at hpk
            injection hpk with hpk
            subst hpk
            have hmq : 0 < m0.quantity := by
              cases hos : oppSide side with
              | Bid =>
                rw [hos] at hlkq
                simp only [levelsOf] at hlkq
                exact ((hwf.2.2.1 p _ hlkq).2 m0 (List.mem_cons_self m0 qrest)).2
              | Ask =>
                rw [hos] at hlkq
                simp only [levelsOf] at hlkq
                exact ((hwf.2.2.2.1 p _ hlkq).2 m0 (List.mem_cons_self m0 qrest)).2
            have hred : ∃ rm b2,
                reduce_front_quantity b (oppSide side) p (min rem m0.quantity) =
                  .ok (rm, b2) := by
              unfold reduce_front_quantity
              rw [hlkq]
              simp only []
              rw [if_neg (by omega)]
              by_cases hz : m0.quantity - min rem m0.quantity = 0
              · rw [if_pos hz]
                by_cases hq2 : qrest.isEmpty
                · rw [if_pos hq2]
                  cases oppSide side <;> exact ⟨_, _, rfl⟩
                · rw [if_neg hq2]
                  cases oppSide side <;> exact ⟨_, _, rfl⟩
              · rw [if_neg hz]
                cases oppSide side <;> exact ⟨_, _, rfl⟩
            obtain ⟨rm, b2, hok⟩ := hred
            rw [hok] at hm
            obtain ⟨hwf2, hsub2⟩ := reduce_front_WF b (oppSide side) p
              (min rem m0.quantity) rm b2 hwf hok
            have hih := ih (rem - min rem m0.quantity) b2
              (matchLoop side tid oid limit f (rem - min rem m0.quantity) b2)
              hwf2 (by omega) rfl
            obtain ⟨ih1, ih2, ih3, ih4, ih5, ih6⟩ := hih
            subst hm
            refine ⟨ih1, ih2, ?_, List.Sublist.trans ih4 hsub2, ih5, ih6⟩
            simp only [sumFills, List.map_cons, List.sum_cons] at ih3 ⊢
            omega
    · rw [if_neg hcr] at hm
      subst hm
      refine ⟨hwf, rfl, by simp [sumFills], List.Sublist.refl _, by simp, ?_⟩
      intro _ _ o hos hop
      obtain ⟨_, _, _, _, hbb, hba, _⟩ := hwf
      unfold insertSafe
      rw [hos, hop]
      cases side with
      | Bid =>
        intro pa hpa
        simp only [bestOpp] at hbo
        rw [hba] at hbo
        obtain ⟨m, hm1, hm2⟩ := listMin_le _ _ hpa
        rw [hbo] at hm1
        injection hm1 with hm1
        subst hm1
        simp only [crossesPrice] at hcr
        simp at hcr
        omega
      | Ask =>
        intro pb hpb
        simp only [bestOpp] at hbo
        rw [hbb] at hbo
        obtain ⟨m, hm1, hm2⟩ := le_listMax _ _ hpb
        rw [hbo] at hm1
        injection hm1 with hm1
        subst hm1
        simp only [crossesPrice] at hcr
        simp at hcr
        omega

/-- Every fill produced by the matching loop arises from one loop step: at
some intermediate book the opposite best `p` crossed the limit, the maker was
the head of that level, the traders differed, and the fill records the
maker's price and `min(residual, maker quantity)`, where the residual is the
incoming quantity minus the quantities already filled before it. -/
theorem matchLoop_fills (side : Side) (tid oid : Nat) (limit : Int) :
    ∀ (fuel rem : Nat) (b : OrderBook) (pre post : List Fill) (f : Fill),
    (matchLoop side tid oid limit fuel rem b).fills = pre ++ f :: post →
    ∃ (b1 : OrderBook) (p : Int) (maker : Order) (rm : Nat) (b2 : OrderBook),
      bestOpp b1 side = some p ∧ crossesPrice side p limit = true ∧
      peek_front b1 (oppSide side) p = some maker ∧
      maker.trader_id ≠ tid ∧ 0 < rem - sumFills pre ∧
      reduce_front_quantity b1 (oppSide side) p
        (min (rem - sumFills pre) maker.quantity) = .ok (rm, b2) ∧
      f = ⟨oid, maker.id, maker.price, min (rem - sumFills pre) maker.quantity,
           rm == 0⟩ := by
  intro fuel
  induction fuel with
  | zero =>
    intro rem b pre post f h
    rw [matchLoop] at h
    simp at h
  | succ fl ih =>
    intro rem b pre post f h
    rw [matchLoop] at h
    by_cases hrem : rem = 0
    · rw [if_pos hrem] at h; simp at h
    rw [if_neg hrem] at h
    rcases hbo : bestOpp b side with _ | p <;> simp only [hbo] at h
    · simp at h
    by_cases hcr : crossesPrice side p limit = true
    · rw [if_pos hcr] at h
      rcases hpk : peek_front b (oppSide side) p with _ | maker <;>
        simp only [hpk] at h
      · simp at h
      by_cases hst : maker.trader_id = tid
      · rw [if_pos hst] at h; simp at h
      rw [if_neg hst] at h
      rcases hred : reduce_front_quantity b (oppSide side) p
          (min rem maker.quantity) with e | rb <;> simp only [hred] at h
      · simp at h
      obtain ⟨mr, b2⟩ := rb
      simp only [] at h
      cases pre with
      | nil =>
        simp only [List.nil_append] at h
        rw [List.cons.injEq] at h
        obtain ⟨hf, _⟩ := h
        have hsf : sumFills ([] : List Fill) = 0 := rfl
        refine ⟨b, p, maker, mr, b2, hbo, hcr, hpk, hst, ?_, ?_, ?_⟩
        · rw [hsf]; omega
        · rw [hsf, Nat.sub_zero]; exact hred
        · rw [hsf, Nat.sub_zero]; exact hf.symm
      | cons f0 pre' =>
        simp only [List.cons_append] at h
        rw [List.cons.injEq] at h
        obtain ⟨hf0, hrest⟩ := h
        obtain ⟨b1, p1, mk, rm, b2', h1, h2, h3, h4, h5, h6, h7⟩ :=
          ih (rem - min rem maker.quantity) b2 pre' post f hrest
        have hq0 : f0.quantity = min rem maker.quantity := by rw [← hf0]
        have he : rem - min rem maker.quantity - sumFills pre' =
            rem - sumFills (f0 :: pre') := by
          simp only [sumFills, List.map_cons, List.sum_cons, hq0]
          omega
        rw [he] at h5 h6 h7
        exact ⟨b1, p1, mk, rm, b2', h1, h2, h3, h4, h5, h6, h7⟩
    · rw [if_neg hcr] at h
      simp at h

theorem add_order_WF (b : OrderBook) (o : Order) (hwf : WF b) :
    WF (add_order b o).2 := by
  unfold add_order
  by_cases hq : o.quantity = 0
  · rw [if_pos hq]
    exact hwf
  rw [if_neg hq]
  obtain ⟨hw1, herr, hcons, hsub, hself, hexit⟩ :=
    matchLoop_spec o.side o.trader_id o.id o.price o.quantity o.quantity b
      (matchLoop o.side o.trader_id o.id o.price o.quantity o.quantity b)
      hwf le_rfl rfl
  simp only [herr]
  by_cases hst : (matchLoop o.side o.trader_id o.id o.price o.quantity
      o.quantity b).selfTrade
  · rw [if_pos hst]
    exact hw1
  rw [if_neg hst]
  by_cases hr0 : (matchLoop o.side o.trader_id o.id o.price o.quantity
      o.quantity b).rem = 0
  · rw [if_pos hr0]
    exact hw1
  rw [if_neg hr0]
  rcases hins : insert_order
      (matchLoop o.side o.trader_id o.id o.price o.quantity o.quantity b).book
      { o with quantity :=
        (matchLoop o.side o.trader_id o.id o.price o.quantity o.quantity b).rem }
    with e | b' <;> simp only [hins]
  · exact hw1
  · exact insert_order_WF _
      { o with quantity :=
        (matchLoop o.side o.trader_id o.id o.price o.quantity o.quantity b).rem }
      b' hw1 (Nat.pos_of_ne_zero hr0)
      (hexit (Nat.pos_of_ne_zero hr0) (by simpa using hst) _ rfl rfl) hins

theorem WF_empty (cap : Nat) : WF (OrderBook.emptyWith cap) := by
  refine ⟨by simp [OrderBook.emptyWith, keysA_nil], by simp [OrderBook.emptyWith, keysA_nil],
    ?_, ?_, by simp [OrderBook.emptyWith, keysA_nil, listMax], by simp [OrderBook.emptyWith, keysA_nil, listMin], ?_⟩
  · intro p q hlook
    simp [OrderBook.emptyWith, lookupA] at hlook
  · intro p q hlook
    simp [OrderBook.emptyWith, lookupA] at hlook
  · intro pb hpb
    simp [OrderBook.emptyWith, keysA_nil] at hpb

theorem runOps_WF (cap : Nat) (ops : List EngineOp) : WF (runOps cap ops) := by
  suffices h : ∀ (l : List EngineOp) (b : OrderBook), WF b →
      WF (l.foldl
        (fun b op =>
          match op with
          | .add o => (add_order b o).2
          | .cancel id => (cancel_order b id).2) b) by
    exact h ops _ (WF_empty cap)
  intro l
  induction l with
  | nil => intro b hb; exact hb
  | cons op rest ih =>
    intro b hb
    simp only [List.foldl_cons]
    apply ih
    cases op with
    | add o => exact add_order_WF b o hb
    | cancel id => exact cancel_order_WF b id hb

theorem mem_of_lookupA {κ β : Type} [DecidableEq κ] (l : List (κ × β)) (k : κ)
    (v : β) (h : lookupA l k = some v) : (k, v) ∈ l := by
  induction l with
  | nil => simp [lookupA] at h
  | cons kv rest ih =>
    obtain ⟨k0, w⟩ := kv
    by_cases h0 : k0 = k
    · rw [lookupA, if_pos h0] at h
      injection h with h
      subst h h0
      exact List.mem_cons_self _ _
    · rw [lookupA, if_neg h0] at h
      exact List.mem_cons_of_mem _ (ih h)

theorem lookupA_none_of_sublist {κ β : Type} [DecidableEq κ]
    (l l' : List (κ × β)) (hs : List.Sublist l' l) (k : κ)
    (hn : lookupA l k = none) : lookupA l' k = none := by
  apply lookupA_none_of_not_mem
  intro hm
  obtain ⟨v, hv⟩ := lookupA_isSome_of_mem _ _ hm
  have hmem : (k, v) ∈ l := hs.subset (mem_of_lookupA _ _ _ hv)
  have hk : k ∈ keysA l := by
    simp only [keysA, List.mem_map]
    exact ⟨(k, v), hmem, rfl⟩
  obtain ⟨w, hw⟩ := lookupA_isSome_of_mem _ _ hk
  rw [hn] at hw
  cases hw

theorem insert_order_level (b : OrderBook) (o : Order) (b' : OrderBook)
    (h : insert_order b o = .ok b') :
    lookupA (levelsOf b' o.side) o.price =
      some ((lookupA (levelsOf b o.side) o.price).getD [] ++ [o]) := by
  unfold insert_order at h
  split at h
  · cases h
  split at h
  · cases h
  injection h with h
  subst h
  cases hside : o.side <;>
    simp only [hside, update_best_after_insert, levelsOf] <;>
    exact lookupA_putA_self _ _ _

/-- Case analysis of a successful `add_order`: relates the result and the
final book to the matching loop's output. -/
theorem add_order_ok_cases (b : OrderBook) (o : Order) (r : AddOrderResult)
    (b' : OrderBook) (h : add_order b o = (.ok r, b')) :
    0 < o.quantity ∧ r.order_id = o.id ∧
    r.fills = (matchLoop o.side o.trader_id o.id o.price o.quantity o.quantity b).fills ∧
    ((matchLoop o.side o.trader_id o.id o.price o.quantity o.quantity b).selfTrade = true ∧
        r.status = .CancelledSelfTrade ∧
        b' = (matchLoop o.side o.trader_id o.id o.price o.quantity o.quantity b).book ∨
      (matchLoop o.side o.trader_id o.id o.price o.quantity o.quantity b).selfTrade = false ∧
        (matchLoop o.side o.trader_id o.id o.price o.quantity o.quantity b).rem = 0 ∧
        r.status = .FullyFilled ∧
        b' = (matchLoop o.side o.trader_id o.id o.price o.quantity o.quantity b).book ∨
      (matchLoop o.side o.trader_id o.id o.price o.quantity o.quantity b).selfTrade = false ∧
        0 < (matchLoop o.side o.trader_id o.id o.price o.quantity o.quantity b).rem ∧
        insert_order (matchLoop o.side o.trader_id o.id o.price o.quantity o.quantity b).book
          { o with quantity := (matchLoop o.side o.trader_id o.id o.price o.quantity o.quantity b).rem } = .ok b' ∧
        r.status = (if (matchLoop o.side o.trader_id o.id o.price o.quantity o.quantity b).fills.isEmpty
          then OrderStatus.Resting else OrderStatus.PartiallyFilled)) := by
  unfold add_order at h
  by_cases hq : o.quantity = 0
  · rw [if_pos hq] at h
    rw [Prod.mk.injEq] at h
    cases h.1
  rw [if_neg hq] at h
  rcases herr : (matchLoop o.side o.trader_id o.id o.price o.quantity o.quantity b).err
    with _ | e <;> simp only [herr] at h
  swap
  · rw [Prod.ext_iff] at h
    exact absurd h.1 (by simp)
  by_cases hst : (matchLoop o.side o.trader_id o.id o.price o.quantity o.quantity b).selfTrade
  · rw [if_pos hst] at h
    rw [Prod.mk.injEq] at h
    obtain ⟨h1, h2⟩ := h
    injection h1 with h1
    subst h1
    exact ⟨Nat.pos_of_ne_zero hq, rfl, rfl, Or.inl ⟨hst, rfl, h2.symm⟩⟩
  rw [if_neg hst] at h
  by_cases hr0 : (matchLoop o.side o.trader_id o.id o.price o.quantity o.quantity b).rem = 0
  · rw [if_pos hr0] at h
    rw [Prod.mk.injEq] at h
    obtain ⟨h1, h2⟩ := h
    injection h1 with h1
    subst h1
    exact ⟨Nat.pos_of_ne_zero hq, rfl, rfl,
      Or.inr (Or.inl ⟨by simpa using hst, hr0, rfl, h2.symm⟩)⟩
  rw [if_neg hr0] at h
  rcases hins : insert_order
      (matchLoop o.side o.trader_id o.id o.price o.quantity o.quantity b).book
      { o with quantity := (matchLoop o.side o.trader_id o.id o.price o.quantity o.quantity b).rem }
    with e | b2 <;> simp only [hins] at h
  · rw [Prod.mk.injEq] at h
    cases h.1
  · rw [Prod.mk.injEq] at h
    obtain ⟨h1, h2⟩ := h
    injection h1 with h1
    subst h1
    subst h2
    exact ⟨Nat.pos_of_ne_zero hq, rfl, rfl,
      Or.inr (Or.inr ⟨by simpa using hst, Nat.pos_of_ne_zero hr0, rfl, rfl⟩)⟩

/-- C1: for every successful `add_order` on a well-formed book, the sum of
the returned fill quantities plus the residual quantity equals the incoming
order's quantity, where the residual is 0 when fully filled, rests at the
back of the order's price level when the status is Resting or
PartiallyFilled, and is the positive cancelled quantity when the status is
CancelledSelfTrade. -/
theorem c1_quantity_conservation (b : OrderBook) (o : Order)
    (r : AddOrderResult) (b' : OrderBook) (hwf : WF b)
    (h : add_order b o = (.ok r, b')) :
    ∃ residual : Nat,
      sumFills r.fills + residual = o.quantity ∧
      (r.status = .FullyFilled → residual = 0) ∧
      ((r.status = .Resting ∨ r.status = .PartiallyFilled) →
        0 < residual ∧ ∃ q0 : List Order,
          lookupA (levelsOf b' o.side) o.price =
            some (q0 ++ [{ o with quantity := residual }])) ∧
      (r.status = .CancelledSelfTrade → 0 < residual) := by
  obtain ⟨hq, _, hfills, hcases⟩ := add_order_ok_cases b o r b' h
  obtain ⟨_, _, hcons, _, hself, _⟩ :=
    matchLoop_spec o.side o.trader_id o.id o.price o.quantity o.quantity b
      (matchLoop o.side o.trader_id o.id o.price o.quantity o.quantity b)
      hwf le_rfl rfl
  refine ⟨(matchLoop o.side o.trader_id o.id o.price o.quantity o.quantity
    b).rem, by rw [hfills]; exact hcons, ?_, ?_, ?_⟩
  · intro hst
    rcases hcases with ⟨_, hs, _⟩ | ⟨_, hr0, _, _⟩ | ⟨_, _, _, hs⟩
    · rw [hs] at hst; simp at hst
    · exact hr0
    · rw [hs] at hst
      by_cases he : (matchLoop o.side o.trader_id o.id o.price o.quantity
          o.quantity b).fills.isEmpty
      · rw [if_pos he] at hst; simp at hst
      · rw [if_neg he] at hst; simp at hst
  · intro hst
    rcases hcases with ⟨_, hs, _⟩ | ⟨_, _, hs, _⟩ | ⟨_, hpos, hins, _⟩
    · rw [hs] at hst; simp at hst
    · rw [hs] at hst; simp at hst
    · exact ⟨hpos, _, insert_order_level _ _ _ hins⟩
  · intro hst
    rcases hcases with ⟨hself', _, _⟩ | ⟨_, _, hs, _⟩ | ⟨_, _, _, hs⟩
    · exact hself hself'
    · rw [hs] at hst; simp at hst
    · rw [hs] at hst
      by_cases he : (matchLoop o.side o.trader_id o.id o.price o.quantity
          o.quantity b).fills.isEmpty
      · rw [if_pos he] at hst; simp at hst
      · rw [if_neg he] at hst; simp at hst

/-- C1 witness: inserting a first order of quantity 10 into an empty engine
rests the full quantity on the book. -/
theorem c1_quantity_conservation_witness :
    ∃ residual : Nat,
      sumFills ([] : List Fill) + residual = 10 ∧
      (OrderStatus.Resting = .FullyFilled → residual = 0) ∧
      ((OrderStatus.Resting = .Resting ∨
          OrderStatus.Resting = .PartiallyFilled) →
        0 < residual ∧ ∃ q0 : List Order,
          lookupA
            (levelsOf
              (add_order (OrderBook.emptyWith 4) ⟨1, 1, .Bid, 100, 10, 1⟩).2
              Side.Bid) 100 =
            some (q0 ++
              [{ (⟨1, 1, .Bid, 100, 10, 1⟩ : Order) with
                  quantity := residual }])) ∧
      (OrderStatus.Resting = .CancelledSelfTrade → 0 < residual) :=
  c1_quantity_conservation (OrderBook.emptyWith 4) ⟨1, 1, .Bid, 100, 10, 1⟩
    ⟨1, .Resting, []⟩ (add_order (OrderBook.emptyWith 4)
      ⟨1, 1, .Bid, 100, 10, 1⟩).2 (WF_empty 4) (by decide)

/-- C2: starting from an empty engine, after any sequence of `add_order` and
`cancel_order` calls, whenever both cached best prices exist the best bid is
strictly below the best ask: the book never crosses. -/
theorem c2_book_never_crosses (cap : Nat) (ops : List EngineOp)
    (pb pa : Int) (hb : (runOps cap ops).best_bid = some pb)
    (ha : (runOps cap ops).best_ask = some pa) : pb < pa := by
  obtain ⟨_, _, _, _, hbb, hba, hcross⟩ := runOps_WF cap ops
  rw [hbb] at hb
  rw [hba] at ha
  exact hcross pb (listMax_mem _ _ hb) pa (listMin_mem _ _ ha)

/-- C2 witness: a resting bid at 100 and a resting ask at 105. -/
theorem c2_book_never_crosses_witness :
    (runOps 4 [.add ⟨1, 1, .Bid, 100, 10, 1⟩,
               .add ⟨2, 2, .Ask, 105, 10, 2⟩]).best_bid = some 100 ∧
    (runOps 4 [.add ⟨1, 1, .Bid, 100, 10, 1⟩,
               .add ⟨2, 2, .Ask, 105, 10, 2⟩]).best_ask = some 105 ∧
    (100 : Int) < 105 :=
  ⟨by decide, by decide,
    c2_book_never_crosses 4
      [.add ⟨1, 1, .Bid, 100, 10, 1⟩, .add ⟨2, 2, .Ask, 105, 10, 2⟩]
      100 105 (by decide) (by decide)⟩

/-- C3: on a well-formed book, when `add_order` returns status
`CancelledSelfTrade`, the incoming order is not inserted (its id is still
absent from the index), the cancelled residual is positive (so the
self-trade step and everything after it filled nothing), fills from earlier
iterations are retained in the result, and every retained fill was made
against a maker of a different trader; concretely, spec scenario (d): after
resting asks 100x5 (trader 10) and 101x10 (trader 20), a bid 101x15 from
trader 20 fills 5 at 100, is cancelled on the self-trade with order 2, and
one order remains with best ask 101. -/
theorem c3_self_trade_prevention :
    (∀ (b : OrderBook) (o : Order) (r : AddOrderResult) (b' : OrderBook),
      WF b → add_order b o = (.ok r, b') →
      r.status = .CancelledSelfTrade →
      lookupA b.order_index o.id = none →
      lookupA b'.order_index o.id = none ∧
      0 < o.quantity - sumFills r.fills ∧
      ∀ (pre post : List Fill) (f : Fill), r.fills = pre ++ f :: post →
        ∃ maker : Order, f.maker_order_id = maker.id ∧
          maker.trader_id ≠ o.trader_id) ∧
    (add_order
        (runOps 8 [.add ⟨1, 10, .Ask, 100, 5, 1⟩,
                   .add ⟨2, 20, .Ask, 101, 10, 2⟩])
        ⟨3, 20, .Bid, 101, 15, 3⟩).1 =
      .ok ⟨3, .CancelledSelfTrade, [⟨3, 1, 100, 5, true⟩]⟩ ∧
    (add_order
        (runOps 8 [.add ⟨1, 10, .Ask, 100, 5, 1⟩,
                   .add ⟨2, 20, .Ask, 101, 10, 2⟩])
        ⟨3, 20, .Bid, 101, 15, 3⟩).2.order_count = 1 ∧
    (add_order
        (runOps 8 [.add ⟨1, 10, .Ask, 100, 5, 1⟩,
                   .add ⟨2, 20, .Ask, 101, 10, 2⟩])
        ⟨3, 20, .Bid, 101, 15, 3⟩).2.best_ask = some 101 := by
  refine ⟨?_, by decide, by decide, by decide⟩
  intro b o r b' hwf h hstatus hidx
  obtain ⟨hq, _, hfills, hcases⟩ := add_order_ok_cases b o r b' h
  obtain ⟨_, _, hcons, hsub, hself, _⟩ :=
    matchLoop_spec o.side o.trader_id o.id o.price o.quantity o.quantity b
      (matchLoop o.side o.trader_id o.id o.price o.quantity o.quantity b)
      hwf le_rfl rfl
  rcases hcases with ⟨hst, _, hbook⟩ | ⟨_, _, hs, _⟩ | ⟨_, _, _, hs⟩
  · refine ⟨?_, ?_, ?_⟩
    · rw [hbook]
      exact lookupA_none_of_sublist _ _ hsub _ hidx
    · rw [hfills]
      have := hself hst
      omega
    · intro pre post f hsplit
      rw [hfills] at hsplit
      obtain ⟨b1, p, maker, rm, b2, _, _, _, hmk, _, _, hf⟩ :=
        matchLoop_fills o.side o.trader_id o.id o.price o.quantity o.quantity
          b pre post f hsplit
      exact ⟨maker, by rw [hf], hmk⟩
  · rw [hs] at hstatus; simp at hstatus
  · rw [hs] at hstatus
    by_cases he : (matchLoop o.side o.trader_id o.id o.price o.quantity
        o.quantity b).fills.isEmpty
    · rw [if_pos he] at hstatus; simp at hstatus
    · rw [if_neg he] at hstatus; simp at hstatus

/-- C3 witness: the general part applied to spec scenario (d). -/
theorem c3_self_trade_prevention_witness :
    lookupA
      (add_order
        (runOps 8 [.add ⟨1, 10, .Ask, 100, 5, 1⟩,
                   .add ⟨2, 20, .Ask, 101, 10, 2⟩])
        ⟨3, 20, .Bid, 101, 15, 3⟩).2.order_index 3 = none ∧
    0 < 15 - sumFills [⟨3, 1, 100, 5, true⟩] :=
  ⟨(c3_self_trade_prevention.1
      (runOps 8 [.add ⟨1, 10, .Ask, 100, 5, 1⟩,
                 .add ⟨2, 20, .Ask, 101, 10, 2⟩])
      ⟨3, 20, .Bid, 101, 15, 3⟩
      ⟨3, .CancelledSelfTrade, [⟨3, 1, 100, 5, true⟩]⟩
      (add_order
        (runOps 8 [.add ⟨1, 10, .Ask, 100, 5, 1⟩,
                   .add ⟨2, 20, .Ask, 101, 10, 2⟩])
        ⟨3, 20, .Bid, 101, 15, 3⟩).2
      (runOps_WF 8 _) (by decide) (by decide) (by decide)).1,
   (c3_self_trade_prevention.1
      (runOps 8 [.add ⟨1, 10, .Ask, 100, 5, 1⟩,
                 .add ⟨2, 20, .Ask, 101, 10, 2⟩])
      ⟨3, 20, .Bid, 101, 15, 3⟩
      ⟨3, .CancelledSelfTrade, [⟨3, 1, 100, 5, true⟩]⟩
      (add_order
        (runOps 8 [.add ⟨1, 10, .Ask, 100, 5, 1⟩,
                   .add ⟨2, 20, .Ask, 101, 10, 2⟩])
        ⟨3, 20, .Bid, 101, 15, 3⟩).2
      (runOps_WF 8 _) (by decide) (by decide) (by decide)).2.1⟩

/-- C7: every fill emitted by a successful `add_order` is made against the
maker resting at the front of the best crossing opposite level of the
intermediate book, with price equal to the maker's resting price and
quantity equal to `min` of the incoming order's remaining quantity (its
quantity minus the earlier fills) and the maker's resting quantity — for
either taker side. -/
theorem c7_fill_price_and_quantity (b : OrderBook) (o : Order)
    (r : AddOrderResult) (b' : OrderBook) (h : add_order b o = (.ok r, b'))
    (pre post : List Fill) (f : Fill) (hsplit : r.fills = pre ++ f :: post) :
    ∃ (b1 : OrderBook) (p : Int) (maker : Order),
      bestOpp b1 o.side = some p ∧
      crossesPrice o.side p o.price = true ∧
      peek_front b1 (oppSide o.side) p = some maker ∧
      f.price = maker.price ∧
      f.quantity = min (o.quantity - sumFills pre) maker.quantity ∧
      f.maker_order_id = maker.id ∧
      f.taker_order_id = o.id ∧
      maker.trader_id ≠ o.trader_id := by
  obtain ⟨_, _, hfills, _⟩ := add_order_ok_cases b o r b' h
  rw [hfills] at hsplit
  obtain ⟨b1, p, maker, rm, b2, hbo, hcr, hpk, hmk, _, _, hf⟩ :=
    matchLoop_fills o.side o.trader_id o.id o.price o.quantity o.quantity
      b pre post f hsplit
  exact ⟨b1, p, maker, hbo, hcr, hpk, by rw [hf], by rw [hf], by rw [hf],
    by rw [hf], hmk⟩

/-- C7 witness: a bid 101x7 against a resting ask 100x5 fills 5 at the
maker's price 100 (price improvement for the taker). -/
theorem c7_fill_price_and_quantity_witness :
    ∃ (b1 : OrderBook) (p : Int) (maker : Order),
      bestOpp b1 Side.Bid = some p ∧
      crossesPrice Side.Bid p 101 = true ∧
      peek_front b1 (oppSide Side.Bid) p = some maker ∧
      (100 : Int) = maker.price ∧
      5 = min (7 - sumFills []) maker.quantity ∧
      1 = maker.id ∧
      2 = (⟨2, 20, .Bid, 101, 7, 2⟩ : Order).id ∧
      maker.trader_id ≠ 20 :=
  c7_fill_price_and_quantity
    (runOps 8 [.add ⟨1, 10, .Ask, 100, 5, 1⟩]) ⟨2, 20, .Bid, 101, 7, 2⟩
    ⟨2, .PartiallyFilled, [⟨2, 1, 100, 5, true⟩]⟩
    (add_order (runOps 8 [.add ⟨1, 10, .Ask, 100, 5, 1⟩])
      ⟨2, 20, .Bid, 101, 7, 2⟩).2
    (by decide) [] [] ⟨2, 1, 100, 5, true⟩ rfl

/-- Closed form of a non-exceeding `reduce_front_quantity` on an existing
nonempty level. -/
theorem reduce_front_eq_of_some (b : OrderBook) (side : Side) (price : Int)
    (q : Nat) (front : Order) (rest : List Order)
    (hlk : lookupA (levelsOf b side) price = some (front :: rest))
    (hexc : ¬ front.quantity < q) :
    reduce_front_quantity b side price q =
      if front.quantity - q = 0 then
        if rest.isEmpty then
          match side with
          | .Bid => .ok (0, { b with bids := removeA b.bids price,
                                     order_index := removeA b.order_index front.id,
                                     best_bid := listMax (keysA (removeA b.bids price)) })
          | .Ask => .ok (0, { b with asks := removeA b.asks price,
                                     order_index := removeA b.order_index front.id,
                                     best_ask := listMin (keysA (removeA b.asks price)) })
        else
          match side with
          | .Bid => .ok (0, { b with bids := putA b.bids price rest,
                                     order_index := removeA b.order_index front.id })
          | .Ask => .ok (0, { b with asks := putA b.asks price rest,
                                     order_index := removeA b.order_index front.id })
      else
        match side with
        | .Bid => .ok (front.quantity - q,
            { b with bids := putA b.bids price
                                  ({ front with quantity := front.quantity - q } :: rest) })
        | .Ask => .ok (front.quantity - q,
            { b with asks := putA b.asks price
                                  ({ front with quantity := front.quantity - q } :: rest) }) := by
  unfold reduce_front_quantity
  simp only [hlk]
  rw [if_neg hexc]
  by_cases hz : front.quantity - q = 0 <;>
    [rw [if_pos hz, if_pos hz]; rw [if_neg hz, if_neg hz]] <;>
    cases side <;> rfl

/-- C6: `reduce_front_quantity side price q` fails with `PriceLevelNotFound`
when the level is absent and with `FillExceedsQuantity` when `q` exceeds the
head order's quantity; otherwise it returns the head's new remaining
quantity.  When the head's quantity stays positive the index is untouched
and the head stays at the level front with the reduced quantity; when it
reaches zero the head is unlinked and removed from the id index, and if the
level then becomes empty it is deleted and the side's cached best price is
the extremum of the remaining keys. -/
theorem c6_reduce_front_spec (b : OrderBook) (side : Side) (price : Int)
    (q : Nat) (hwf : WF b) :
    (lookupA (levelsOf b side) price = none →
      reduce_front_quantity b side price q =
        .error (.PriceLevelNotFound price)) ∧
    ∀ front rest, lookupA (levelsOf b side) price = some (front :: rest) →
      (front.quantity < q →
        reduce_front_quantity b side price q =
          .error (.FillExceedsQuantity front.quantity q)) ∧
      (q ≤ front.quantity → ∃ b' : OrderBook,
        reduce_front_quantity b side price q =
          .ok (front.quantity - q, b') ∧
        (0 < front.quantity - q →
          b'.order_index = b.order_index ∧
          lookupA (levelsOf b' side) price =
            some ({ front with quantity := front.quantity - q } :: rest)) ∧
        (front.quantity - q = 0 →
          b'.order_index = removeA b.order_index front.id ∧
          (rest = [] →
            lookupA (levelsOf b' side) price = none ∧
            b'.best_bid = listMax (keysA b'.bids) ∧
            b'.best_ask = listMin (keysA b'.asks)) ∧
          (rest ≠ [] →
            lookupA (levelsOf b' side) price = some rest))) := by
  obtain ⟨ndb, nda, _, _, hbb, hba, _⟩ := hwf
  refine ⟨?_, ?_⟩
  · intro hnone
    unfold reduce_front_quantity
    simp only [hnone]
  intro front rest hlk
  refine ⟨?_, ?_⟩
  · intro hexc
    unfold reduce_front_quantity
    simp only [hlk]
    rw [if_pos hexc]
  intro hle
  have hexc : ¬ front.quantity < q := by omega
  rw [reduce_front_eq_of_some b side price q front rest hlk hexc]
  by_cases hz : front.quantity - q = 0
  · rw [if_pos hz]
    by_cases hre : rest = []
    · subst hre
      simp only [List.isEmpty_nil, if_true]
      cases side with
      | Bid =>
        simp only [levelsOf] at hlk
        refine ⟨_, by rw [hz], ?_, ?_⟩
        · intro hc; omega
        · intro _
          refine ⟨rfl, ?_, ?_⟩
          · intro _
            exact ⟨lookupA_removeA_self b.bids price ndb, rfl, hba⟩
          · intro hc
            exact absurd rfl hc
      | Ask =>
        simp only [levelsOf] at hlk
        refine ⟨_, by rw [hz], ?_, ?_⟩
        · intro hc; omega
        · intro _
          refine ⟨rfl, ?_, ?_⟩
          · intro _
            exact ⟨lookupA_removeA_self b.asks price nda, hbb, rfl⟩
          · intro hc
            exact absurd rfl hc
    · rw [if_neg (by simpa using hre)]
      cases side with
      | Bid =>
        refine ⟨_, by rw [hz], ?_, ?_⟩
        · intro hc; omega
        · intro _
          refine ⟨rfl, fun hc => absurd hc hre, fun _ => ?_⟩
          simp only [levelsOf]
          exact lookupA_putA_self _ _ _
      | Ask =>
        refine ⟨_, by rw [hz], ?_, ?_⟩
        · intro hc; omega
        · intro _
          refine ⟨rfl, fun hc => absurd hc hre, fun _ => ?_⟩
          simp only [levelsOf]
          exact lookupA_putA_self _ _ _
  · rw [if_neg hz]
    cases side with
    | Bid =>
      refine ⟨_, rfl, ?_, fun hc => absurd hc hz⟩
      intro _
      refine ⟨rfl, ?_⟩
      simp only [levelsOf]
      exact lookupA_putA_self _ _ _
    | Ask =>
      refine ⟨_, rfl, ?_, fun hc => absurd hc hz⟩
      intro _
      refine ⟨rfl, ?_⟩
      simp only [levelsOf]
      exact lookupA_putA_self _ _ _

/-- C6 witness: fully reducing the single ask 100x5 deletes the level,
clears the index entry and recomputes the best ask. -/
theorem c6_reduce_front_spec_witness :
    ∃ b' : OrderBook,
      reduce_front_quantity (runOps 8 [.add ⟨1, 10, .Ask, 100, 5, 1⟩])
          Side.Ask 100 5 =
        .ok ((⟨1, 10, .Ask, 100, 5, 1⟩ : Order).quantity - 5, b') ∧
      (0 < (⟨1, 10, .Ask, 100, 5, 1⟩ : Order).quantity - 5 →
        b'.order_index =
          (runOps 8 [.add ⟨1, 10, .Ask, 100, 5, 1⟩]).order_index ∧
        lookupA (levelsOf b' Side.Ask) 100 =
          some ({ (⟨1, 10, .Ask, 100, 5, 1⟩ : Order) with
                    quantity :=
                      (⟨1, 10, .Ask, 100, 5, 1⟩ : Order).quantity - 5 } ::
                 [])) ∧
      ((⟨1, 10, .Ask, 100, 5, 1⟩ : Order).quantity - 5 = 0 →
        b'.order_index =
          removeA (runOps 8 [.add ⟨1, 10, .Ask, 100, 5, 1⟩]).order_index
            (⟨1, 10, .Ask, 100, 5, 1⟩ : Order).id ∧
        (([] : List Order) = [] →
          lookupA (levelsOf b' Side.Ask) 100 = none ∧
          b'.best_bid = listMax (keysA b'.bids) ∧
          b'.best_ask = listMin (keysA b'.asks)) ∧
        (([] : List Order) ≠ [] →
          lookupA (levelsOf b' Side.Ask) 100 = some [])) :=
  ((c6_reduce_front_spec (runOps 8 [.add ⟨1, 10, .Ask, 100, 5, 1⟩])
      Side.Ask 100 5 (runOps_WF 8 _)).2
    ⟨1, 10, .Ask, 100, 5, 1⟩ [] (by decide)).2 (by decide)

/-! ## Ring buffer lemmas -/

theorem wrappingSub_mod (a b : Nat) (hba : b ≤ a) (h : a - b < USIZE_MOD) :
    wrappingSub (a % USIZE_MOD) (b % USIZE_MOD) = a - b := by
  unfold wrappingSub USIZE_MOD at *
  omega

theorem usize_mod_eq_iff (a b : Nat) (hab : a ≤ b) (h : b - a < USIZE_MOD) :
    a % USIZE_MOD = b % USIZE_MOD ↔ a = b := by
  unfold USIZE_MOD at *
  omega

theorem usize_succ_mod (a : Nat) :
    (a % USIZE_MOD + 1) % USIZE_MOD = (a + 1) % USIZE_MOD := by
  unfold USIZE_MOD
  omega

theorem mod_cap_ne (cap a b : Nat) (hab : a < b) (h : b - a < cap) :
    a % cap ≠ b % cap := by
  intro he
  have hmod : Nat.ModEq cap a b := he
  have hdvd : cap ∣ b - a := (Nat.modEq_iff_dvd' (le_of_lt hab)).mp hmod
  have := Nat.le_of_dvd (by omega) hdvd
  omega

theorem getD_set_self {α : Type} (l : List (Option α)) (i : Nat) (x : Option α)
    (h : i < l.length) : (l.set i x).getD i none = x := by
  simp [List.getD_eq_getElem?_getD, List.getElem?_set_self, h]

theorem getD_set_ne {α : Type} (l : List (Option α)) (i j : Nat) (x : Option α)
    (h : i ≠ j) : (l.set i x).getD j none = l.getD j none := by
  simp [List.getD_eq_getElem?_getD, List.getElem?_set_ne h]

theorem Ring.push_cap {α : Type} (r : Ring α) (v : α) :
    (r.push v).2.cap = r.cap := by
  rw [Ring.push]
  split
  · simp only []
    split
    · rfl
    · rfl
  · rfl

theorem Ring.pop_cap {α : Type} (r : Ring α) :
    (r.pop).2.cap = r.cap := by
  rw [Ring.pop]
  split
  · simp only []
    split
    · rfl
    · rfl
  · rfl

/-- A freshly constructed power-of-two ring holds the empty queue. -/
theorem ringInv_init {α : Type} (k : Nat) (hk : k < 64) :
    RingInv (ring_buffer α (2 ^ k)) [] := by
  refine ⟨0, 0, 0, 0, Nat.pos_pow_of_pos k (by omega), ⟨k, hk, rfl⟩,
    List.length_replicate _ _, rfl, rfl, rfl, rfl, rfl, rfl,
    le_rfl, rfl, by simp, le_rfl, by simp [ring_buffer], le_rfl, le_rfl, ?_⟩
  intro i h
  simp at h

/-- The state after the slot-write half of `push` satisfies the invariant
for the extended queue. -/
theorem pushWrite_inv {α : Type} (slots : List (Option α))
    (k H T PT CH : Nat) (q : List α) (v : α)
    (hk : k < 64) (hslen : slots.length = 2 ^ k)
    (hTH : T ≤ H) (hlen : H - T = q.length) (hlt : q.length < 2 ^ k)
    (hPTT : PT ≤ T) (hHPT : H + 1 ≤ PT + 2 ^ k)
    (hTCH : T ≤ CH) (hCHH : CH ≤ H)
    (hslot : ∀ i, (h : i < q.length) →
      slots.getD ((T + i) % 2 ^ k) none = some (q.get ⟨i, h⟩)) :
    RingInv (⟨2 ^ k, slots.set ((H % USIZE_MOD) &&& (2 ^ k - 1)) (some v),
      (H % USIZE_MOD + 1) % USIZE_MOD, T % USIZE_MOD,
      (H % USIZE_MOD + 1) % USIZE_MOD, PT % USIZE_MOD, CH % USIZE_MOD,
      T % USIZE_MOD⟩ : Ring α) (q ++ [v]) := by
  have hcap : 0 < 2 ^ k := Nat.pos_pow_of_pos k (by omega)
  have hidx : (H % USIZE_MOD) &&& (2 ^ k - 1) = H % 2 ^ k := by
    rw [Nat.and_pow_two_sub_one_eq_mod]
    exact Nat.mod_mod_of_dvd H
      (by unfold USIZE_MOD; exact pow_dvd_pow 2 (le_of_lt hk))
  have hHeq : T + q.length = H := by omega
  refine ⟨H + 1, T, PT, CH, hcap, ⟨k, hk, rfl⟩, ?_, ?_, rfl, ?_, rfl, rfl,
    rfl, by omega, by simp; omega, by simp; omega, hPTT,
    by simp only []; omega, by omega, by omega, ?_⟩
  · simp only [List.length_set]
    exact hslen
  · simp only []
    rw [usize_succ_mod]
  · simp only []
    rw [usize_succ_mod]
  · intro i h
    simp only [List.length_append, List.length_cons, List.length_nil] at h
    simp only [hidx]
    by_cases hi : i = q.length
    · subst hi
      rw [show (T + q.length) % 2 ^ k = H % 2 ^ k by rw [hHeq]]
      rw [getD_set_self _ _ _ (by rw [hslen]; exact Nat.mod_lt H hcap)]
      have : (q ++ [v]).get ⟨q.length, by simp⟩ = v := by simp
      rw [this]
    · have hilt : i < q.length := by omega
      rw [getD_set_ne _ _ _ _ ?ne]
      case ne =>
        rw [show H % 2 ^ k = (T + q.length) % 2 ^ k by rw [hHeq]]
        intro he
        exact mod_cap_ne (2 ^ k) (T + i) (T + q.length) (by omega)
          (by omega) he.symm
      rw [hslot i hilt]
      have : (q ++ [v]).get ⟨i, by simp; omega⟩ = q.get ⟨i, hilt⟩ := by
        simp [List.getElem_append_left, hilt]
      rw [this]

/-- The state after the slot-read half of `pop` satisfies the invariant for
the dequeued queue. -/
theorem popRead_inv {α : Type} (slots : List (Option α))
    (k H T PT CH : Nat) (x : α) (xs : List α)
    (hk : k < 64) (hslen : slots.length = 2 ^ k)
    (hTH : T + 1 ≤ H) (hlen : H - T = xs.length + 1)
    (hqcap : xs.length + 1 ≤ 2 ^ k)
    (hPTT : PT ≤ T) (hHPT : H ≤ PT + 2 ^ k)
    (hTCH : T + 1 ≤ CH) (hCHH : CH ≤ H)
    (hslot : ∀ i, (h : i < xs.length + 1) →
      slots.getD ((T + i) % 2 ^ k) none = some ((x :: xs).get ⟨i, h⟩)) :
    RingInv (⟨2 ^ k, slots, H % USIZE_MOD, (T % USIZE_MOD + 1) % USIZE_MOD,
      H % USIZE_MOD, PT % USIZE_MOD, CH % USIZE_MOD,
      (T % USIZE_MOD + 1) % USIZE_MOD⟩ : Ring α) xs := by
  have hcap : 0 < 2 ^ k := Nat.pos_pow_of_pos k (by omega)
  refine ⟨H, T + 1, PT, CH, hcap, ⟨k, hk, rfl⟩, hslen, rfl, ?_, rfl, rfl,
    ?_, rfl, by omega, by omega, by simp only []; omega, by omega,
    by simp only []; omega, hTCH, hCHH, ?_⟩
  · simp only []
    rw [usize_succ_mod]
  · simp only []
    rw [usize_succ_mod]
  · intro i h
    have heq : T + 1 + i = T + (i + 1) := by omega
    rw [heq, hslot (i + 1) (by omega)]
    rfl

/-- Single-threaded characterization of `Producer::push` under the coupling
invariant: it rejects with `Full` — returning the offered value — exactly
when the occupancy `head - tail` (wrapping) equals the capacity, and
otherwise writes the value and publishes the new head. -/
theorem Ring.push_spec {α : Type} (r : Ring α) (q : List α) (v : α)
    (hinv : RingInv r q) :
    ((r.push v).1 = some v ↔ wrappingSub r.head r.tail = r.cap) ∧
    (q.length = r.cap → (r.push v).1 = some v ∧ RingInv (r.push v).2 q) ∧
    (q.length < r.cap →
      (r.push v).1 = none ∧ RingInv (r.push v).2 (q ++ [v])) := by
  obtain ⟨cap, slots, hd, tl, pch, pct, cch, cct⟩ := r
  obtain ⟨H, T, PT, CH, hcap, ⟨k, hk, hck⟩, hslen, hH, hT, hpH, hpT, hcT,
    hcH, hTH, hlen, hqcap, hPTT, hHPT, hTCH, hCHH, hslot⟩ := hinv
  simp only [] at hslen hH hT hpH hpT hcT hcH hck hqcap hHPT hslot ⊢
  subst hck hH hT hpH hpT hcT hcH
  have hcapM : 2 ^ k < USIZE_MOD := by
    unfold USIZE_MOD
    exact Nat.pow_lt_pow_right (by omega) hk
  have hwps : wrappingSub (H % USIZE_MOD) (T % USIZE_MOD) = q.length := by
    rw [wrappingSub_mod H T hTH (by omega)]
    omega
  have hwpt : wrappingSub (H % USIZE_MOD) (PT % USIZE_MOD) = H - PT :=
    wrappingSub_mod H PT (le_trans hPTT hTH) (by omega)
  by_cases hfull : q.length = 2 ^ k
  · have hg : H - PT = 2 ^ k := by omega
    have hpush : Ring.push ⟨2 ^ k, slots, H % USIZE_MOD, T % USIZE_MOD,
        H % USIZE_MOD, PT % USIZE_MOD, CH % USIZE_MOD, T % USIZE_MOD⟩ v =
        (some v, ⟨2 ^ k, slots, H % USIZE_MOD, T % USIZE_MOD, H % USIZE_MOD,
          T % USIZE_MOD, CH % USIZE_MOD, T % USIZE_MOD⟩) := by
      simp only [Ring.push]
      rw [hwpt, if_pos hg]
      rw [hwps, if_pos hfull]
    refine ⟨?_, ?_, ?_⟩
    · rw [hpush]
      simp [hwps, hfull]
    · intro _
      refine ⟨by rw [hpush], ?_⟩
      rw [hpush]
      exact ⟨H, T, T, CH, hcap, ⟨k, hk, rfl⟩, hslen, rfl, rfl, rfl, rfl,
        rfl, rfl, hTH, hlen, hqcap, le_rfl, by simp only []; omega,
        hTCH, hCHH, hslot⟩
    · intro hlt
      exact absurd hfull (by omega)
  · have hlt : q.length < 2 ^ k := by omega
    by_cases hg : H - PT = 2 ^ k
    · have hpush : Ring.push ⟨2 ^ k, slots, H % USIZE_MOD, T % USIZE_MOD,
          H % USIZE_MOD, PT % USIZE_MOD, CH % USIZE_MOD, T % USIZE_MOD⟩ v =
          (none, ⟨2 ^ k, slots.set ((H % USIZE_MOD) &&& (2 ^ k - 1)) (some v),
            (H % USIZE_MOD + 1) % USIZE_MOD, T % USIZE_MOD,
            (H % USIZE_MOD + 1) % USIZE_MOD, T % USIZE_MOD, CH % USIZE_MOD,
            T % USIZE_MOD⟩) := by
        simp only [Ring.push]
        rw [hwpt, if_pos hg]
        rw [hwps, if_neg hfull]
        simp only [Ring.pushWrite]
      refine ⟨?_, ?_, ?_⟩
      · rw [hpush]
        simp [hwps, hfull]
      · intro hq
        exact absurd hq hfull
      · intro _
        refine ⟨by rw [hpush], ?_⟩
        rw [hpush]
        exact pushWrite_inv slots k H T T CH q v hk hslen hTH hlen hlt
          le_rfl (by omega) hTCH hCHH hslot
    · have hpush : Ring.push ⟨2 ^ k, slots, H % USIZE_MOD, T % USIZE_MOD,
          H % USIZE_MOD, PT % USIZE_MOD, CH % USIZE_MOD, T % USIZE_MOD⟩ v =
          (none, ⟨2 ^ k, slots.set ((H % USIZE_MOD) &&& (2 ^ k - 1)) (some v),
            (H % USIZE_MOD + 1) % USIZE_MOD, T % USIZE_MOD,
            (H % USIZE_MOD + 1) % USIZE_MOD, PT % USIZE_MOD, CH % USIZE_MOD,
            T % USIZE_MOD⟩) := by
        simp only [Ring.push]
        rw [hwpt, if_neg hg]
        simp only [Ring.pushWrite]
      refine ⟨?_, ?_, ?_⟩
      · rw [hpush]
        simp [hwps, hfull]
      · intro hq
        exact absurd hq hfull
      · intro _
        refine ⟨by rw [hpush], ?_⟩
        rw [hpush]
        exact pushWrite_inv slots k H T PT CH q v hk hslen hTH hlen hlt
          hPTT (by omega) hTCH hCHH hslot

/-- Single-threaded characterization of `Consumer::pop` under the coupling
invariant: it returns `Empty` exactly when `head` equals `tail`, and
otherwise dequeues the oldest value. -/
theorem Ring.pop_spec {α : Type} (r : Ring α) (q : List α)
    (hinv : RingInv r q) :
    ((r.pop).1 = none ↔ r.head = r.tail) ∧
    (q = [] → (r.pop).1 = none ∧ RingInv (r.pop).2 q) ∧
    (∀ x xs, q = x :: xs →
      (r.pop).1 = some (some x) ∧ RingInv (r.pop).2 xs) := by
  obtain ⟨cap, slots, hd, tl, pch, pct, cch, cct⟩ := r
  obtain ⟨H, T, PT, CH, hcap, ⟨k, hk, hck⟩, hslen, hH, hT, hpH, hpT, hcT,
    hcH, hTH, hlen, hqcap, hPTT, hHPT, hTCH, hCHH, hslot⟩ := hinv
  simp only [] at hslen hH hT hpH hpT hcT hcH hck hqcap hHPT hslot ⊢
  subst hck hH hT hpH hpT hcT hcH
  have hcapM : 2 ^ k < USIZE_MOD := by
    unfold USIZE_MOD
    exact Nat.pow_lt_pow_right (by omega) hk
  have hidxT : (T % USIZE_MOD) &&& (2 ^ k - 1) = T % 2 ^ k := by
    rw [Nat.and_pow_two_sub_one_eq_mod]
    exact Nat.mod_mod_of_dvd T
      (by unfold USIZE_MOD; exact pow_dvd_pow 2 (le_of_lt hk))
  cases q with
  | nil =>
    have hHTeq : H = T := by
      simp only [List.length_nil] at hlen
      omega
    have hCHTeq : CH = T := by omega
    have hHT : H % USIZE_MOD = T % USIZE_MOD := by rw [hHTeq]
    have hCHT : CH % USIZE_MOD = T % USIZE_MOD := by rw [hCHTeq]
    have hpop : Ring.pop ⟨2 ^ k, slots, H % USIZE_MOD, T % USIZE_MOD,
        H % USIZE_MOD, PT % USIZE_MOD, CH % USIZE_MOD, T % USIZE_MOD⟩ =
        (none, ⟨2 ^ k, slots, H % USIZE_MOD, T % USIZE_MOD, H % USIZE_MOD,
          PT % USIZE_MOD, H % USIZE_MOD, T % USIZE_MOD⟩) := by
      simp only [Ring.pop]
      rw [if_pos hCHT.symm]
      rw [if_pos hHT.symm]
    refine ⟨?_, ?_, ?_⟩
    · rw [hpop]
      simp only []
      exact ⟨fun _ => hHT, fun _ => trivial⟩
    · intro _
      refine ⟨by rw [hpop], ?_⟩
      rw [hpop]
      exact ⟨T, T, PT, T, hcap, ⟨k, hk, rfl⟩, hslen, hHT, rfl, hHT, rfl,
        rfl, hHT, le_rfl, by simp, by simp, hPTT,
        by simp only []; omega, le_rfl, le_rfl, fun i h => by simp at h⟩
    · intro x xs hq
      exact absurd hq (by simp)
  | cons x xs =>
    have hTltH : T < H := by
      simp only [List.length_cons] at hlen
      omega
    have hlen' : H - T = xs.length + 1 := by
      simp only [List.length_cons] at hlen
      omega
    have hqcap' : xs.length + 1 ≤ 2 ^ k := by
      simp only [List.length_cons] at hqcap
      omega
    have hneHT : ¬ T % USIZE_MOD = H % USIZE_MOD := by
      rw [usize_mod_eq_iff T H (by omega) (by omega)]
      omega
    have hval0 : slots.getD (T % 2 ^ k) none = some x := by
      have h0 := hslot 0 (by simp)
      simpa using h0
    by_cases hE : T = CH
    · subst hE
      have hpop : Ring.pop ⟨2 ^ k, slots, H % USIZE_MOD, T % USIZE_MOD,
          H % USIZE_MOD, PT % USIZE_MOD, T % USIZE_MOD, T % USIZE_MOD⟩ =
          (some (slots.getD ((T % USIZE_MOD) &&& (2 ^ k - 1)) none),
            ⟨2 ^ k, slots, H % USIZE_MOD, (T % USIZE_MOD + 1) % USIZE_MOD,
              H % USIZE_MOD, PT % USIZE_MOD, H % USIZE_MOD,
              (T % USIZE_MOD + 1) % USIZE_MOD⟩) := by
        simp only [Ring.pop]
        rw [if_pos trivial]
        rw [if_neg hneHT]
        simp only [Ring.popRead]
      refine ⟨?_, ?_, ?_⟩
      · rw [hpop]
        simp only []
        constructor
        · intro h
          exact absurd h (by simp)
        · intro h
          exact absurd h.symm hneHT
      · intro h
        exact absurd h (by simp)
      · intro y ys hq
        injection hq with h1 h2
        subst h1
        subst h2
        refine ⟨?_, ?_⟩
        · rw [hpop]
          simp only []
          rw [hidxT, hval0]
        · rw [hpop]
          exact popRead_inv slots k H T PT H x xs hk hslen (by omega)
            hlen' hqcap' hPTT (by omega) (by omega) le_rfl hslot
    · have hTltCH : T < CH := by omega
      have hneTCH : ¬ T % USIZE_MOD = CH % USIZE_MOD := by
        rw [usize_mod_eq_iff T CH (by omega) (by omega)]
        omega
      have hpop : Ring.pop ⟨2 ^ k, slots, H % USIZE_MOD, T % USIZE_MOD,
          H % USIZE_MOD, PT % USIZE_MOD, CH % USIZE_MOD, T % USIZE_MOD⟩ =
          (some (slots.getD ((T % USIZE_MOD) &&& (2 ^ k - 1)) none),
            ⟨2 ^ k, slots, H % USIZE_MOD, (T % USIZE_MOD + 1) % USIZE_MOD,
              H % USIZE_MOD, PT % USIZE_MOD, CH % USIZE_MOD,
              (T % USIZE_MOD + 1) % USIZE_MOD⟩) := by
        simp only [Ring.pop]
        rw [if_neg hneTCH]
        simp only [Ring.popRead]
      refine ⟨?_, ?_, ?_⟩
      · rw [hpop]
        simp only []
        constructor
        · intro h
          exact absurd h (by simp)
        · intro h
          exact absurd h.symm hneHT
      · intro h
        exact absurd h (by simp)
      · intro y ys hq
        injection hq with h1 h2
        subst h1
        subst h2
        refine ⟨?_, ?_⟩
        · rw [hpop]
          simp only []
          rw [hidxT, hval0]
        · rw [hpop]
          exact popRead_inv slots k H T PT CH x xs hk hslen (by omega)
            hlen' hqcap' hPTT (by omega) (by omega) (by omega) hslot

theorem RingInv.len_le_cap {α : Type} {r : Ring α} {q : List α}
    (h : RingInv r q) : q.length ≤ r.cap := by
  obtain ⟨_, _, _, _, _, _, _, _, _, _, _, _, _, _, _, hq, _⟩ := h
  exact hq

/-- A ring run from any invariant-coupled state behaves exactly like the
bounded FIFO queue on the coupled contents. -/
theorem runRing_sim {α : Type} :
    ∀ (ops : List (RingOp α)) (r : Ring α) (q : List α), RingInv r q →
    (runRing r ops).2.1 = (runQueue r.cap q ops).1 ∧
    (runRing r ops).2.2 = ((runQueue r.cap q ops).2).map some := by
  intro ops
  induction ops with
  | nil =>
    intro r q hinv
    exact ⟨rfl, rfl⟩
  | cons op rest ih =>
    intro r q hinv
    cases op with
    | push v =>
      obtain ⟨_, hfull, hnot⟩ := Ring.push_spec r q v hinv
      by_cases hfq : q.length = r.cap
      · obtain ⟨h1, hinv2⟩ := hfull hfq
        obtain ⟨ih1, ih2⟩ := ih (r.push v).2 q hinv2
        rw [Ring.push_cap] at ih1 ih2
        simp only [runRing, runQueue, if_pos hfq, h1]
        simp [ih1, ih2]
      · have hlt : q.length < r.cap :=
          lt_of_le_of_ne (RingInv.len_le_cap hinv) hfq
        obtain ⟨h1, hinv2⟩ := hnot hlt
        obtain ⟨ih1, ih2⟩ := ih (r.push v).2 (q ++ [v]) hinv2
        rw [Ring.push_cap] at ih1 ih2
        simp only [runRing, runQueue, if_neg hfq, h1]
        simp [ih1, ih2]
    | pop =>
      obtain ⟨_, hemp, hcons⟩ := Ring.pop_spec r q hinv
      cases q with
      | nil =>
        obtain ⟨h1, hinv2⟩ := hemp rfl
        obtain ⟨ih1, ih2⟩ := ih (r.pop).2 [] hinv2
        rw [Ring.pop_cap] at ih1 ih2
        simp only [runRing, runQueue, h1]
        simp [ih1, ih2]
      | cons x xs =>
        obtain ⟨h1, hinv2⟩ := hcons x xs rfl
        obtain ⟨ih1, ih2⟩ := ih (r.pop).2 xs hinv2
        rw [Ring.pop_cap] at ih1 ih2
        simp only [runRing, runQueue, h1]
        simp [ih1, ih2]

/-- Whatever the bounded queue pops is, after the initial contents, an
in-order prefix of what it accepted. -/
theorem runQueue_popped_prefix {α : Type} (cap : Nat) :
    ∀ (ops : List (RingOp α)) (q : List α),
    ∃ t, (runQueue cap q ops).2 ++ t = q ++ (runQueue cap q ops).1 := by
  intro ops
  induction ops with
  | nil =>
    intro q
    exact ⟨q, by simp [runQueue]⟩
  | cons op rest ih =>
    intro q
    cases op with
    | push v =>
      by_cases hfq : q.length = cap
      · obtain ⟨t, ht⟩ := ih q
        simp only [runQueue, if_pos hfq]
        exact ⟨t, ht⟩
      · obtain ⟨t, ht⟩ := ih (q ++ [v])
        simp only [runQueue, if_neg hfq]
        refine ⟨t, ?_⟩
        rw [ht]
        simp
    | pop =>
      cases q with
      | nil =>
        obtain ⟨t, ht⟩ := ih []
        simp only [runQueue]
        exact ⟨t, by simpa using ht⟩
      | cons x xs =>
        obtain ⟨t, ht⟩ := ih xs
        simp only [runQueue]
        exact ⟨t, by simp [ht]⟩

/-- C9: for the SPSC ring buffer used single-threaded, `push` returns
`Full` carrying the unenqueued value exactly when the occupancy
`head - tail` (wrapping subtraction) equals the capacity, `pop` returns
`Empty` exactly when `head` equals `tail`, and any run from a fresh
power-of-two buffer agrees with a bounded FIFO queue: successful pops
return exactly the successfully pushed values, in push order. -/
theorem c9_ring_spsc {α : Type} (r : Ring α) (q : List α) (v : α)
    (hinv : RingInv r q) :
    ((r.push v).1 = some v ↔ wrappingSub r.head r.tail = r.cap) ∧
    ((r.pop).1 = none ↔ r.head = r.tail) ∧
    ∀ (k : Nat) (ops : List (RingOp α)), k < 64 →
      (runRing (ring_buffer α (2 ^ k)) ops).2.1 =
        (runQueue (2 ^ k) [] ops).1 ∧
      (runRing (ring_buffer α (2 ^ k)) ops).2.2 =
        ((runQueue (2 ^ k) [] ops).2).map some ∧
      List.IsPrefix (runQueue (2 ^ k) [] ops).2
        (runQueue (2 ^ k) [] ops).1 := by
  refine ⟨(Ring.push_spec r q v hinv).1, (Ring.pop_spec r q hinv).1, ?_⟩
  intro k ops hk
  obtain ⟨h1, h2⟩ :=
    runRing_sim ops (ring_buffer α (2 ^ k)) [] (ringInv_init k hk)
  refine ⟨h1, h2, ?_⟩
  obtain ⟨t, ht⟩ := runQueue_popped_prefix (2 ^ k) ops []
  exact ⟨t, by simpa using ht⟩

/-- C9 witness: a capacity-4 ring: the fresh ring is not full, an empty pop
reports empty, and a concrete push-push-pop-pop run is FIFO. -/
theorem c9_ring_spsc_witness :
    (((ring_buffer Nat (2 ^ 2)).push 7).1 = some 7 ↔
      wrappingSub (ring_buffer Nat (2 ^ 2)).head
        (ring_buffer Nat (2 ^ 2)).tail = (ring_buffer Nat (2 ^ 2)).cap) ∧
    (((ring_buffer Nat (2 ^ 2)).pop).1 = none ↔
      (ring_buffer Nat (2 ^ 2)).head = (ring_buffer Nat (2 ^ 2)).tail) ∧
    ((runRing (ring_buffer Nat (2 ^ 2))
        [.push 5, .push 6, .pop, .pop]).2.1 =
      (runQueue (2 ^ 2) [] [.push 5, .push 6, .pop, .pop]).1 ∧
     (runRing (ring_buffer Nat (2 ^ 2))
        [.push 5, .push 6, .pop, .pop]).2.2 =
      ((runQueue (2 ^ 2) [] [.push 5, .push 6, .pop, .pop]).2).map some ∧
     List.IsPrefix (runQueue (2 ^ 2) [] [.push 5, .push 6, .pop, .pop]).2
       (runQueue (2 ^ 2) [] [.push 5, .push 6, .pop, .pop]).1) :=
  ⟨(c9_ring_spsc (ring_buffer Nat (2 ^ 2)) [] 7
      (ringInv_init 2 (by decide))).1,
   (c9_ring_spsc (ring_buffer Nat (2 ^ 2)) [] 7
      (ringInv_init 2 (by decide))).2.1,
   (c9_ring_spsc (ring_buffer Nat (2 ^ 2)) [] 7
      (ringInv_init 2 (by decide))).2.2
     2 [.push 5, .push 6, .pop, .pop] (by decide)⟩

end VM
